import Mathlib

/-!
# PADriver: constraint generation for a points-to analysis

A shallow embedding of `src/PADriver/PADriver.cpp`.  The pass walks every
instruction of a module, hands out integer ids to IR values (`Value2Int`) and to
abstract memory objects (`getNewMem`), and submits `addAddr` / `addBase` /
`addLoad` / `addStore` calls to the solver object `pointerAnalysis`, followed by
`solve` and `print`.

Modelling conventions.

* A `Value*` is a `Value`: a name (the identity of the IR object) together with its
  static type.  Two values are the same value exactly when they are equal.
* `std::map` is an association list, read by `AssocMap.find` (the first entry of a
  key) and written by `AssocMap.assign` (overwrite that entry, or add one).
* The solver object is modelled by the sequence of calls it has received, oldest
  first.
* `int currInd` is an unbounded `Int`: signed overflow of `++currInd` is undefined
  behaviour in C++ and is not modelled.  `unsigned pos` has 32 bits.
* A failed checked cast (`cast<ConstantInt>`) and an out-of-range `operator[]` on a
  `std::vector` do not produce a state: processing returns a `Fault`.
* The `errs()` trace lines are diagnostic output and are not modelled.
-/

namespace PA

/-! ## The IR, as far as the pass looks at it -/

/-- LLVM types, by the queries the pass makes: `isStructTy` with `getNumElements`,
`isPointerTy` with `getElementType`; every other type is `other`. -/
inductive Ty where
  | other
  | struct (numElements : Nat)
  | pointer (elem : Ty)
  deriving DecidableEq, Repr

/-- The query `Type::isStructTy`. -/
def Ty.isStructTy : Ty → Bool
  | .struct _ => true
  | _ => false

/-- The query `Type::isPointerTy`. -/
def Ty.isPointerTy : Ty → Bool
  | .pointer _ => true
  | _ => false

/-- The accessor `PointerType::getElementType`.  The IR only applies it to pointer
types (the result type of an `alloca`, the type of the pointer operand of a
`getelementptr`); on any other type the model answers `other`. -/
def Ty.getElementType : Ty → Ty
  | .pointer e => e
  | _ => .other

/-- An IR value (`Value*`): its identity and its static type. -/
structure Value where
  name : Nat
  type : Ty
  deriving DecidableEq, Repr

/-- An index operand of a `getelementptr`: a `ConstantInt` with the given
zero-extended value, or any other value. -/
inductive IndexOperand where
  | ConstantInt (zext : Nat)
  | NonConstant (v : Value)
  deriving DecidableEq, Repr

/-- An instruction `I`, by opcode, with the operands the pass reads.  `I` itself is a
value (the result of the instruction).  `calledFunction` is `none` for a call whose
callee is not a statically known function, otherwise the name of the callee.  `Other`
stands for every opcode the switch has no arm for (arithmetic, branches, `ptrtoint`,
`inttoptr`, ...). -/
inductive Instruction where
  | Call (I : Value) (calledFunction : Option String)
  | Alloca (I : Value)
  | GetElementPtr (I : Value) (pointerOperand : Value) (indices : List IndexOperand)
  | BitCast (I : Value) (operand : Value)
  | Store (I : Value) (valueOperand : Value) (pointerOperand : Value)
  | Load (I : Value) (pointerOperand : Value)
  | Other (I : Value)
  deriving DecidableEq, Repr

/-- The cast opcodes of the IR. -/
inductive CastOp where
  | Trunc
  | ZExt
  | SExt
  | FPToUI
  | FPToSI
  | UIToFP
  | SIToFP
  | FPTrunc
  | FPExt
  | PtrToInt
  | IntToPtr
  | BitCast
  deriving DecidableEq, Repr

/-- The cast instruction `I = op v` as the dispatch sees it: the switch has the arm
`case Instruction::BitCast` and no arm for any other cast opcode. -/
def castInstruction (op : CastOp) (I v : Value) : Instruction :=
  match op with
  | .BitCast => .BitCast I v
  | _ => .Other I

/-- A basic block: its instructions in layout order. -/
abbrev BasicBlock := List Instruction

/-- A function: its basic blocks in layout order. -/
abbrev Func := List BasicBlock

/-- A module: its functions in declaration order. -/
abbrev Module := List Func

/-! ## `std::map` -/

/-- The lookup `m.find(k)` / `m.count(k)` / `m[k]` on a present key. -/
def AssocMap.find {β : Type} : List (Value × β) → Value → Option β
  | [], _ => none
  | (k, b) :: rest, v => if k = v then some b else AssocMap.find rest v

/-- The assignment `m[k] = b`: overwrite the entry of `k`, or add one. -/
def AssocMap.assign {β : Type} : List (Value × β) → Value → β → List (Value × β)
  | [], v, b => [(v, b)]
  | (k, c) :: rest, v, b =>
      if k = v then (k, b) :: rest else (k, c) :: AssocMap.assign rest v b

/-! ## The pass -/

/-- A call received by the solver object `pointerAnalysis`. -/
inductive SolverCall where
  | addAddr (a b : Int)
  | addBase (a b : Int)
  | addLoad (a b : Int)
  | addStore (a b : Int)
  | solve
  | print
  deriving DecidableEq, Repr

/-- The two ids passed by a constraint submission (none for `solve` and `print`). -/
def SolverCall.args : SolverCall → List Int
  | .addAddr a b => [a, b]
  | .addBase a b => [a, b]
  | .addLoad a b => [a, b]
  | .addStore a b => [a, b]
  | .solve => []
  | .print => []

/-- The members of `struct PADriver` and the four `STATISTIC` counters.
`pointerAnalysis` is the sequence of calls made on the solver so far. -/
structure PADriver where
  pointerAnalysis : List SolverCall
  currInd : Int
  valMap : List (Value × Int)
  valMem : List (Value × List Int)
  PABaseCt : Nat
  PAAddrCt : Nat
  PALoadCt : Nat
  PAStoreCt : Nat
  deriving DecidableEq, Repr

/-- What stops the pass: a failed `cast<ConstantInt>`, or `mems[i]` past the end. -/
inductive Fault where
  | castFailed
  | outOfBounds
  deriving DecidableEq, Repr

namespace PADriver

/-- The constructor `PADriver::PADriver`. -/
def init : PADriver :=
  { pointerAnalysis := [], currInd := 0, valMap := [], valMem := [],
    PABaseCt := 0, PAAddrCt := 0, PALoadCt := 0, PAStoreCt := 0 }

/-- The member `int Value2Int(Value *v)`: the id of `v`, minted on first use. -/
def Value2Int (s : PADriver) (v : Value) : Int × PADriver :=
  match AssocMap.find s.valMap v with
  | some n => (n, s)
  | none =>
      let n := s.currInd + 1
      (n, { s with currInd := n, valMap := AssocMap.assign s.valMap v n })

/-- The member `int getNewMem()`: `return ++currInd;`. -/
def getNewMem (s : PADriver) : Int × PADriver :=
  (s.currInd + 1, { s with currInd := s.currInd + 1 })

/-- The statements `pointerAnalysis->addAddr(a, b); PAAddrCt++;`. -/
def addAddr (s : PADriver) (a b : Int) : PADriver :=
  { s with pointerAnalysis := s.pointerAnalysis ++ [SolverCall.addAddr a b],
           PAAddrCt := s.PAAddrCt + 1 }

/-- The statements `pointerAnalysis->addBase(a, b); PABaseCt++;`. -/
def addBase (s : PADriver) (a b : Int) : PADriver :=
  { s with pointerAnalysis := s.pointerAnalysis ++ [SolverCall.addBase a b],
           PABaseCt := s.PABaseCt + 1 }

/-- The statements `pointerAnalysis->addLoad(a, b); PALoadCt++;`. -/
def addLoad (s : PADriver) (a b : Int) : PADriver :=
  { s with pointerAnalysis := s.pointerAnalysis ++ [SolverCall.addLoad a b],
           PALoadCt := s.PALoadCt + 1 }

/-- The statements `pointerAnalysis->addStore(a, b); PAStoreCt++;`. -/
def addStore (s : PADriver) (a b : Int) : PADriver :=
  { s with pointerAnalysis := s.pointerAnalysis ++ [SolverCall.addStore a b],
           PAStoreCt := s.PAStoreCt + 1 }

/-- The malloc arm (lines 79-94): mint and cache one memory object on the first visit
of the call site, read the cache otherwise; then `addAddr(Value2Int(I), mems[0])`. -/
def caseMalloc (s : PADriver) (I : Value) : Except Fault PADriver :=
  let (mems, s1) :=
    match AssocMap.find s.valMem I with
    | none =>
        let (m, s0) := getNewMem s
        ([m], { s0 with valMem := AssocMap.assign s0.valMem I [m] })
    | some cached => (cached, s)
  let (a, s2) := Value2Int s1 I
  match mems[0]? with
  | none => .error Fault.outOfBounds
  | some b => .ok (addAddr s2 a b)

/-- The number of memory objects of an `alloca` (lines 107-114): the number of
elements of a struct type, 1 for any other allocated type. -/
def allocaNumElems (ty : Ty) : Nat :=
  match ty with
  | .struct numElements => numElements
  | _ => 1

/-- The loop `for (i = 0; i < numElems; i++) mems.push_back(getNewMem());`, with the
iterations still to run, the state and the vector built so far. -/
def allocaMint : Nat → PADriver → List Int → List Int × PADriver
  | 0, s, mems => (mems, s)
  | n + 1, s, mems =>
      let (m, s1) := getNewMem s
      allocaMint n s1 (mems ++ [m])

/-- The loop `for (i = 0; i < mems.size(); i++)` of the `Alloca` arm over the elements
still to visit: `a = Value2Int(I); addAddr(a, mems[i]); PAAddrCt++`. -/
def allocaEmit : List Int → Value → PADriver → PADriver
  | [], _, s => s
  | m :: rest, I, s =>
      let (a, s1) := Value2Int s I
      allocaEmit rest I (addAddr s1 a m)

/-- The `Alloca` arm (lines 101-134). -/
def caseAlloca (s : PADriver) (I : Value) : PADriver :=
  let numElems := allocaNumElems I.type.getElementType
  let (mems, s1) :=
    match AssocMap.find s.valMem I with
    | none =>
        let (minted, s0) := allocaMint numElems s []
        (minted, { s0 with valMem := AssocMap.assign s0.valMem I minted })
    | some cached => (cached, s)
  allocaEmit mems I s1

/-- The index loop of the `GetElementPtr` arm (lines 143-151), with the operands still
to visit, the loop counter `i` and the current `pos`: the operand at position 1 is
cast to `ConstantInt` and its zero-extended value is stored in the `unsigned pos`. -/
def gepPos : List IndexOperand → Nat → Nat → Except Fault Nat
  | [], _, pos => .ok pos
  | it :: rest, i, pos =>
      if i = 1 then
        match it with
        | .ConstantInt zext => gepPos rest (i + 1) (zext % 2 ^ 32)
        | .NonConstant _ => .error Fault.castFailed
      else gepPos rest (i + 1) pos

/-- The `GetElementPtr` arm (lines 135-166). -/
def caseGetElementPtr (s : PADriver) (I v : Value) (indices : List IndexOperand) :
    Except Fault PADriver :=
  match v.type.getElementType.isStructTy, AssocMap.find s.valMem v with
  | true, some mems =>
      match gepPos indices 0 0 with
      | .error e => .error e
      | .ok pos =>
          let (a, s1) := Value2Int s I
          match mems[pos]? with
          | none => .error Fault.outOfBounds
          | some b => .ok (addBase s1 a b)
  | _, _ =>
      let (a, s1) := Value2Int s I
      let (b, s2) := Value2Int s1 v
      .ok (addBase s2 a b)

/-- The `BitCast` arm (lines 167-180). -/
def caseBitCast (s : PADriver) (I v : Value) : PADriver :=
  if v.type.isPointerTy then
    let (a, s1) := Value2Int s I
    let (b, s2) := Value2Int s1 v
    addBase s2 a b
  else s

/-- The `Store` arm (lines 181-197): `*ptr = v`. -/
def caseStore (s : PADriver) (v ptr : Value) : PADriver :=
  if v.type.isPointerTy then
    let (a, s1) := Value2Int s ptr
    let (b, s2) := Value2Int s1 v
    addStore s2 a b
  else s

/-- The `Load` arm (lines 198-210): `I = *ptr`. -/
def caseLoad (s : PADriver) (I ptr : Value) : PADriver :=
  let (a, s1) := Value2Int s I
  let (b, s2) := Value2Int s1 ptr
  addLoad s2 a b

/-- The body of the instruction loop (lines 69-211): the malloc check on call
instructions, then the dispatch on the opcode.  A call instruction matches no arm of
the switch; neither does an instruction of any opcode the switch does not list. -/
def processInstruction (s : PADriver) (inst : Instruction) : Except Fault PADriver :=
  match inst with
  | .Call I calledFunction =>
      match calledFunction with
      | some name => if name = "malloc" then caseMalloc s I else .ok s
      | none => .ok s
  | .Alloca I => .ok (caseAlloca s I)
  | .GetElementPtr I v indices => caseGetElementPtr s I v indices
  | .BitCast I v => .ok (caseBitCast s I v)
  | .Store _ v ptr => .ok (caseStore s v ptr)
  | .Load I ptr => .ok (caseLoad s I ptr)
  | .Other _ => .ok s

/-- The loop over the instructions of one basic block. -/
def processBlock : PADriver → BasicBlock → Except Fault PADriver
  | s, [] => .ok s
  | s, inst :: rest =>
      match processInstruction s inst with
      | .error e => .error e
      | .ok s1 => processBlock s1 rest

/-- The loop over the basic blocks of one function. -/
def processFunction : PADriver → Func → Except Fault PADriver
  | s, [] => .ok s
  | s, BB :: rest =>
      match processBlock s BB with
      | .error e => .error e
      | .ok s1 => processFunction s1 rest

/-- The loop over the functions of the module. -/
def processModule : PADriver → Module → Except Fault PADriver
  | s, [] => .ok s
  | s, F :: rest =>
      match processFunction s F with
      | .error e => .error e
      | .ok s1 => processModule s1 rest

/-- The member `bool runOnModule(Module &M)`: the instruction loops, then `solve()` and
`print()`; the pass returns `false`. -/
def runOnModule (s : PADriver) (M : Module) : Except Fault (Bool × PADriver) :=
  match processModule s M with
  | .error e => .error e
  | .ok s1 =>
      let s2 := { s1 with pointerAnalysis := s1.pointerAnalysis ++ [SolverCall.solve] }
      let s3 := { s2 with pointerAnalysis := s2.pointerAnalysis ++ [SolverCall.print] }
      .ok (false, s3)

/-! ## Relations between states -/

/-- The relation `Grows s t`: the counter did not go down, every entry of either table
of `s` is an entry of `t`, and `t` has received the solver calls of `s` first. -/
structure Grows (s t : PADriver) : Prop where
  counter : s.currInd ≤ t.currInd
  valMap : ∀ v n, AssocMap.find s.valMap v = some n → AssocMap.find t.valMap v = some n
  valMem : ∀ v mems, AssocMap.find s.valMem v = some mems →
    AssocMap.find t.valMem v = some mems
  calls : ∃ more, t.pointerAnalysis = s.pointerAnalysis ++ more

/-- The invariant of the id space: the counter is not negative, every recorded id and
every id passed to the solver lies between 1 and the counter, the value table is
injective, no memory-object id occurs twice (within a cached sequence or in two of
them), and no memory-object id is the id of a value. -/
structure WF (s : PADriver) : Prop where
  counter_nonneg : 0 ≤ s.currInd
  valMap_range : ∀ v n, AssocMap.find s.valMap v = some n → 1 ≤ n ∧ n ≤ s.currInd
  valMem_range : ∀ v mems, AssocMap.find s.valMem v = some mems →
    ∀ m ∈ mems, 1 ≤ m ∧ m ≤ s.currInd
  calls_range : ∀ c ∈ s.pointerAnalysis, ∀ x ∈ c.args, 1 ≤ x ∧ x ≤ s.currInd
  valMap_inj : ∀ v w n, AssocMap.find s.valMap v = some n →
    AssocMap.find s.valMap w = some n → v = w
  valMem_nodup : ∀ v mems, AssocMap.find s.valMem v = some mems → mems.Nodup
  valMem_disjoint : ∀ v w mv mw, v ≠ w → AssocMap.find s.valMem v = some mv →
    AssocMap.find s.valMem w = some mw → ∀ m ∈ mv, m ∉ mw
  valMap_valMem : ∀ v n w mems, AssocMap.find s.valMap v = some n →
    AssocMap.find s.valMem w = some mems → n ∉ mems

end PADriver

/-! ## Operations between two observations -/

/-- One step of a run of the pass as seen from outside: a call of `Value2Int`, a call of
`getNewMem`, or the processing of one instruction. -/
inductive Op where
  | Value2Int (v : Value)
  | getNewMem
  | process (inst : Instruction)
  deriving DecidableEq, Repr

/-- Apply one operation; the first component lists the id the call returned (none for
an instruction). -/
def applyOp (s : PADriver) : Op → Except Fault (List Int × PADriver)
  | .Value2Int v => .ok ([(s.Value2Int v).1], (s.Value2Int v).2)
  | .getNewMem => .ok ([s.getNewMem.1], s.getNewMem.2)
  | .process inst =>
      match s.processInstruction inst with
      | .error e => .error e
      | .ok s1 => .ok ([], s1)

/-- Apply a sequence of operations, collecting the ids the direct calls returned. -/
def applyOps : PADriver → List Op → Except Fault (List Int × PADriver)
  | s, [] => .ok ([], s)
  | s, op :: rest =>
      match applyOp s op with
      | .error e => .error e
      | .ok (ids, s1) =>
          match applyOps s1 rest with
          | .error e => .error e
          | .ok (ids1, s2) => .ok (ids ++ ids1, s2)

/-- The ids `c + 1, ..., c + k`, in increasing order. -/
def idsAfter (c : Int) (k : Nat) : List Int :=
  (List.range k).map (fun i : Nat => c + 1 + (i : Int))

/-! ## Sample values and programs -/

namespace Sample

/-- A pointer-typed value. -/
def p : Value := ⟨7, .pointer .other⟩

/-- A value of a non-pointer type. -/
def n : Value := ⟨8, .other⟩

/-- The result of `alloca` of a 3-field struct. -/
def s3 : Value := ⟨0, .pointer (.struct 3)⟩

/-- The result of a field address computation. -/
def q : Value := ⟨1, .pointer .other⟩

/-- The result of `alloca` of a struct without fields. -/
def e0 : Value := ⟨2, .pointer (.struct 0)⟩

/-- The result of a `getelementptr` with a single index on `e0`. -/
def qe : Value := ⟨5, .pointer (.struct 0)⟩

/-- The result of a call of a function named malloc that is declared to return a pointer
to a 2-field struct. -/
def m2 : Value := ⟨3, .pointer (.struct 2)⟩

/-- The result of a call of malloc, an untyped pointer. -/
def m : Value := ⟨4, .pointer .other⟩

/-- The state after `alloca` of `s3` has been processed in the initial state. -/
def afterAlloca : PADriver :=
  { pointerAnalysis := [.addAddr 4 1, .addAddr 4 2, .addAddr 4 3],
    currInd := 4,
    valMap := [(s3, 4)],
    valMem := [(s3, [1, 2, 3])],
    PABaseCt := 0, PAAddrCt := 3, PALoadCt := 0, PAStoreCt := 0 }

/-- The state after the load `q = *p` has been processed in `afterAlloca`. -/
def afterLoad : PADriver :=
  { pointerAnalysis := [.addAddr 4 1, .addAddr 4 2, .addAddr 4 3, .addLoad 5 6],
    currInd := 6,
    valMap := [(s3, 4), (q, 5), (p, 6)],
    valMem := [(s3, [1, 2, 3])],
    PABaseCt := 0, PAAddrCt := 3, PALoadCt := 1, PAStoreCt := 0 }

end Sample

/-! ## Notions used to state the claims about whole runs -/

/-- A constraint submission: any solver call other than `solve` and `print`. -/
def SolverCall.isConstraint : SolverCall → Bool
  | .solve => false
  | .print => false
  | _ => true

/-- An instruction the pass has no arm for: any opcode the switch does not list, a call
whose callee is not statically known, a call of a function not named malloc. -/
def Instruction.isInert : Instruction → Bool
  | .Other _ => true
  | .Call _ none => true
  | .Call _ (some name) => name != "malloc"
  | _ => false

/-- The typing rules of the IR for the operands the pass reads (an assumption on the
input, not part of the pass): the result of an `alloca` and of a `getelementptr` is a
pointer; the pointer operand of a `getelementptr`, of a store and of a load is a
pointer; the bitcast of a pointer is a pointer. -/
def Instruction.wellTyped : Instruction → Bool
  | .Alloca I => I.type.isPointerTy
  | .GetElementPtr I v _ => I.type.isPointerTy && v.type.isPointerTy
  | .BitCast I v => !v.type.isPointerTy || I.type.isPointerTy
  | .Store _ _ ptr => ptr.type.isPointerTy
  | .Load _ ptr => ptr.type.isPointerTy
  | .Call _ _ => true
  | .Other _ => true

namespace PADriver

/-- The id `x` is recorded in `s`: it is the id of a value in the value table, or an
element of a sequence cached in the memory-object table. -/
def Recorded (s : PADriver) (x : Int) : Prop :=
  (∃ v, AssocMap.find s.valMap v = some x) ∨
  (∃ v mems, AssocMap.find s.valMem v = some mems ∧ x ∈ mems)

/-- The elementary state changes every arm of the dispatch is composed of: a call of
`Value2Int`; minting `k` ids and caching them for a site that has no sequence yet; the
submission of one constraint whose arguments are recorded at that moment (the tables
and the counter stay as they are; the statistics counters may change). -/
inductive Micro : PADriver → PADriver → Prop
  | identify (s : PADriver) (v : Value) : Micro s (s.Value2Int v).2
  | mint (s : PADriver) (I : Value) (k : Nat) (h : AssocMap.find s.valMem I = none) :
      Micro s { s with currInd := s.currInd + (k : Int),
                       valMem := AssocMap.assign s.valMem I (idsAfter s.currInd k) }
  | submit (s t : PADriver) (c : SolverCall) (hc : c.isConstraint = true)
      (hargs : ∀ x ∈ c.args, Recorded s x)
      (h1 : t.pointerAnalysis = s.pointerAnalysis ++ [c]) (h2 : t.currInd = s.currInd)
      (h3 : t.valMap = s.valMap) (h4 : t.valMem = s.valMem) : Micro s t

/-- All ids held by the two tables: the ids of the value table, then the cached
sequences, in table order. -/
def allIds (s : PADriver) : List Int :=
  s.valMap.map Prod.snd ++ (s.valMem.map Prod.snd).flatten

/-- The invariant of the dense id space: each table has one entry per key, no id is
held twice, every id held lies between 1 and the counter, and the counter is the
number of ids held. -/
structure Dense (s : PADriver) : Prop where
  valMap_keys : (s.valMap.map Prod.fst).Nodup
  valMem_keys : (s.valMem.map Prod.fst).Nodup
  ids_nodup : s.allIds.Nodup
  ids_range : ∀ x ∈ s.allIds, 1 ≤ x ∧ x ≤ s.currInd
  ids_length : (s.allIds.length : Int) = s.currInd

/-- A finite sequence of elementary state changes. -/
inductive Micros : PADriver → PADriver → Prop
  | done (s : PADriver) : Micros s s
  | step (s t u : PADriver) (h1 : Micro s t) (h2 : Micros t u) : Micros s u

end PADriver

/-! ## Association lists -/

theorem AssocMap.find_assign {β : Type} (m : List (Value × β)) (k v : Value) (b : β) :
    AssocMap.find (AssocMap.assign m k b) v = if k = v then some b else AssocMap.find m v := by
  induction m with
  | nil => simp [AssocMap.assign, AssocMap.find]
  | cons p rest ih =>
      obtain ⟨k0, c⟩ := p
      by_cases h : k0 = k
      · subst h
        by_cases h2 : k0 = v <;> simp [AssocMap.assign, AssocMap.find, h2]
      · by_cases h2 : k0 = v
        · subst h2
          have h3 : ¬ k = k0 := fun e => h e.symm
          simp [AssocMap.assign, AssocMap.find, h, h3]
        · simp [AssocMap.assign, AssocMap.find, h, h2, ih]

theorem AssocMap.find_assign_self {β : Type} (m : List (Value × β)) (k : Value) (b : β) :
    AssocMap.find (AssocMap.assign m k b) k = some b := by
  simp [AssocMap.find_assign]

theorem AssocMap.find_assign_of_ne {β : Type} (m : List (Value × β)) (k v : Value) (b : β)
    (h : k ≠ v) : AssocMap.find (AssocMap.assign m k b) v = AssocMap.find m v := by
  simp [AssocMap.find_assign, h]

namespace PADriver

/-! ## `Value2Int` and `getNewMem` -/

theorem Value2Int_of_find {s : PADriver} {v : Value} {n : Int}
    (h : AssocMap.find s.valMap v = some n) : s.Value2Int v = (n, s) := by
  simp [Value2Int, h]

theorem Value2Int_of_not_find {s : PADriver} {v : Value}
    (h : AssocMap.find s.valMap v = none) :
    s.Value2Int v =
      (s.currInd + 1,
        { s with currInd := s.currInd + 1,
                 valMap := AssocMap.assign s.valMap v (s.currInd + 1) }) := by
  simp [Value2Int, h]

/-- After `Value2Int(v)` the table holds the returned id for `v`. -/
theorem find_Value2Int_self (s : PADriver) (v : Value) :
    AssocMap.find (s.Value2Int v).2.valMap v = some (s.Value2Int v).1 := by
  cases h : AssocMap.find s.valMap v with
  | some n => simp [Value2Int_of_find h, h]
  | none => simp [Value2Int_of_not_find h, AssocMap.find_assign_self]

theorem Grows.refl (s : PADriver) : Grows s s :=
  ⟨le_refl _, fun _ _ h => h, fun _ _ h => h, ⟨[], by simp⟩⟩

theorem Grows.trans {s t u : PADriver} (h1 : Grows s t) (h2 : Grows t u) : Grows s u := by
  refine ⟨le_trans h1.counter h2.counter, fun v n h => h2.valMap v n (h1.valMap v n h),
    fun v m h => h2.valMem v m (h1.valMem v m h), ?_⟩
  obtain ⟨m1, e1⟩ := h1.calls
  obtain ⟨m2, e2⟩ := h2.calls
  exact ⟨m1 ++ m2, by rw [e2, e1, List.append_assoc]⟩

theorem grows_Value2Int (s : PADriver) (v : Value) : Grows s (s.Value2Int v).2 := by
  cases h : AssocMap.find s.valMap v with
  | some n => rw [Value2Int_of_find h]; exact Grows.refl s
  | none =>
      rw [Value2Int_of_not_find h]
      refine ⟨by simp, ?_, fun _ _ h => h, ⟨[], by simp⟩⟩
      intro w n hw
      have hne : v ≠ w := by
        intro e; subst e; rw [h] at hw; cases hw
      simp [AssocMap.find_assign_of_ne _ _ _ _ hne, hw]

theorem grows_getNewMem (s : PADriver) : Grows s s.getNewMem.2 :=
  ⟨by simp [getNewMem], fun _ _ h => h, fun _ _ h => h, ⟨[], by simp [getNewMem]⟩⟩

theorem grows_addAddr (s : PADriver) (a b : Int) : Grows s (s.addAddr a b) :=
  ⟨le_refl _, fun _ _ h => h, fun _ _ h => h, ⟨_, rfl⟩⟩

theorem grows_addBase (s : PADriver) (a b : Int) : Grows s (s.addBase a b) :=
  ⟨le_refl _, fun _ _ h => h, fun _ _ h => h, ⟨_, rfl⟩⟩

theorem grows_addLoad (s : PADriver) (a b : Int) : Grows s (s.addLoad a b) :=
  ⟨le_refl _, fun _ _ h => h, fun _ _ h => h, ⟨_, rfl⟩⟩

theorem grows_addStore (s : PADriver) (a b : Int) : Grows s (s.addStore a b) :=
  ⟨le_refl _, fun _ _ h => h, fun _ _ h => h, ⟨_, rfl⟩⟩

/-! ## The arms of the dispatch, unfolded -/

theorem caseLoad_eq (s : PADriver) (I ptr : Value) :
    s.caseLoad I ptr =
      ((s.Value2Int I).2.Value2Int ptr).2.addLoad (s.Value2Int I).1
        ((s.Value2Int I).2.Value2Int ptr).1 := rfl

theorem caseStore_eq (s : PADriver) (v ptr : Value) :
    s.caseStore v ptr =
      if v.type.isPointerTy then
        ((s.Value2Int ptr).2.Value2Int v).2.addStore (s.Value2Int ptr).1
          ((s.Value2Int ptr).2.Value2Int v).1
      else s := rfl

theorem caseBitCast_eq (s : PADriver) (I v : Value) :
    s.caseBitCast I v =
      if v.type.isPointerTy then
        ((s.Value2Int I).2.Value2Int v).2.addBase (s.Value2Int I).1
          ((s.Value2Int I).2.Value2Int v).1
      else s := rfl

/-- The field-insensitive branch of the `GetElementPtr` arm. -/
theorem caseGetElementPtr_fallback (s : PADriver) (I v : Value) (indices : List IndexOperand)
    (h : v.type.getElementType.isStructTy = false ∨ AssocMap.find s.valMem v = none) :
    s.caseGetElementPtr I v indices =
      .ok (((s.Value2Int I).2.Value2Int v).2.addBase (s.Value2Int I).1
        ((s.Value2Int I).2.Value2Int v).1) := by
  unfold caseGetElementPtr
  rcases h with h | h
  · simp only [h]
  · simp only [h]
    cases v.type.getElementType.isStructTy <;> rfl

/-- The field-sensitive branch of the `GetElementPtr` arm. -/
theorem caseGetElementPtr_struct (s : PADriver) (I v : Value) (indices : List IndexOperand)
    (mems : List Int) (h1 : v.type.getElementType.isStructTy = true)
    (h2 : AssocMap.find s.valMem v = some mems) :
    s.caseGetElementPtr I v indices =
      match gepPos indices 0 0 with
      | .error e => .error e
      | .ok pos =>
          match mems[pos]? with
          | none => .error Fault.outOfBounds
          | some b => .ok ((s.Value2Int I).2.addBase (s.Value2Int I).1 b) := by
  unfold caseGetElementPtr
  simp only [h1, h2]

/-- The index loop only looks at the operand at position 1. -/
theorem gepPos_eq (indices : List IndexOperand) :
    gepPos indices 0 0 =
      (match indices[1]? with
        | none => Except.ok 0
        | some (IndexOperand.ConstantInt zext) => Except.ok (zext % 2 ^ 32)
        | some (IndexOperand.NonConstant _) => Except.error Fault.castFailed) := by
  have h2 : ∀ (l : List IndexOperand) (i pos : Nat), 2 ≤ i → gepPos l i pos = .ok pos := by
    intro l
    induction l with
    | nil => intro i pos _; rfl
    | cons it rest ih =>
        intro i pos hi
        have : i ≠ 1 := by omega
        simp only [gepPos, this, if_false]
        exact ih (i + 1) pos (by omega)
  cases indices with
  | nil => rfl
  | cons i0 rest =>
      cases rest with
      | nil => rfl
      | cons i1 rest2 =>
          cases i1 with
          | ConstantInt z =>
              simp only [gepPos, Nat.zero_ne_one, if_false, if_true, zero_add]
              rw [h2 rest2 2 _ (le_refl 2)]
              simp
          | NonConstant w =>
              simp only [gepPos, Nat.zero_ne_one, if_false, if_true, zero_add]
              simp

/-- The minting loop of the `Alloca` arm in closed form: `n` consecutive ids. -/
theorem allocaMint_eq (n : Nat) (s : PADriver) (mems : List Int) :
    allocaMint n s mems =
      (mems ++ (List.range n).map (fun i : Nat => s.currInd + 1 + (i : Int)),
        { s with currInd := s.currInd + (n : Int) }) := by
  induction n generalizing s mems with
  | zero => simp [allocaMint]
  | succ n ih =>
      simp only [allocaMint, getNewMem]
      rw [ih]
      refine Prod.ext ?_ ?_
      · simp only [List.append_assoc, List.range_succ_eq_map, List.map_cons, List.map_map]
        congr 1
        simp only [List.singleton_append, Nat.cast_zero, add_zero, List.cons.injEq, true_and]
        apply List.map_congr_left
        intro i _
        simp only [Function.comp, Nat.cast_succ]
        ring
      · simp only [Nat.cast_succ]
        congr 1
        ring

/-- The emission loop of the `Alloca` arm once `I` has an id. -/
theorem allocaEmit_of_find (mems : List Int) (I : Value) (s : PADriver) (a : Int)
    (h : AssocMap.find s.valMap I = some a) :
    allocaEmit mems I s =
      { s with pointerAnalysis := s.pointerAnalysis ++ mems.map (SolverCall.addAddr a),
               PAAddrCt := s.PAAddrCt + mems.length } := by
  induction mems generalizing s with
  | nil => simp [allocaEmit]
  | cons m rest ih =>
      simp only [allocaEmit, Value2Int_of_find h]
      rw [ih (s.addAddr a m) (by simpa [addAddr] using h)]
      simp only [addAddr, List.append_assoc, List.map_cons, List.singleton_append,
        List.length_cons]
      congr 1
      omega

/-- The emission loop of the `Alloca` arm: `I` gets its id in the first iteration. -/
theorem allocaEmit_eq (mems : List Int) (I : Value) (s : PADriver) :
    allocaEmit mems I s =
      if mems = [] then s
      else
        { (s.Value2Int I).2 with
          pointerAnalysis := (s.Value2Int I).2.pointerAnalysis ++
            mems.map (SolverCall.addAddr (s.Value2Int I).1),
          PAAddrCt := (s.Value2Int I).2.PAAddrCt + mems.length } := by
  cases mems with
  | nil => simp [allocaEmit]
  | cons m rest =>
      simp only [allocaEmit, reduceCtorEq, if_false]
      rw [allocaEmit_of_find rest I _ (s.Value2Int I).1
        (by simpa [addAddr] using find_Value2Int_self s I)]
      simp only [addAddr, List.append_assoc, List.map_cons, List.singleton_append,
        List.length_cons]
      congr 1
      omega

/-- The first visit of an `alloca`. -/
theorem caseAlloca_first (s : PADriver) (I : Value)
    (h : AssocMap.find s.valMem I = none) :
    s.caseAlloca I =
      allocaEmit
        ((List.range (allocaNumElems I.type.getElementType)).map
          (fun i : Nat => s.currInd + 1 + (i : Int))) I
        { s with
          currInd := s.currInd + (allocaNumElems I.type.getElementType : Int),
          valMem := AssocMap.assign s.valMem I
            ((List.range (allocaNumElems I.type.getElementType)).map
              (fun i : Nat => s.currInd + 1 + (i : Int))) } := by
  simp [caseAlloca, h, allocaMint_eq]

/-- A later visit of an `alloca`. -/
theorem caseAlloca_cached (s : PADriver) (I : Value) (mems : List Int)
    (h : AssocMap.find s.valMem I = some mems) :
    s.caseAlloca I = allocaEmit mems I s := by
  simp [caseAlloca, h]

/-- The first visit of a malloc call: `s1` is the state once the new object is cached. -/
theorem caseMalloc_first (s s1 : PADriver) (I : Value)
    (h : AssocMap.find s.valMem I = none)
    (hs1 : s1 = { s with currInd := s.currInd + 1,
                         valMem := AssocMap.assign s.valMem I [s.currInd + 1] }) :
    s.caseMalloc I =
      .ok ((s1.Value2Int I).2.addAddr (s1.Value2Int I).1 (s.currInd + 1)) := by
  subst hs1
  simp [caseMalloc, h, getNewMem]

/-- A later visit of a malloc call. -/
theorem caseMalloc_cached (s : PADriver) (I : Value) (mems : List Int)
    (h : AssocMap.find s.valMem I = some mems) :
    s.caseMalloc I =
      match mems[0]? with
      | none => .error Fault.outOfBounds
      | some b => .ok ((s.Value2Int I).2.addAddr (s.Value2Int I).1 b) := by
  simp only [caseMalloc, h]

/-! ## Processing only adds to the state -/

/-- Minting ids and caching them for a site that has no sequence yet only adds. -/
theorem grows_mint_cache (s : PADriver) (I : Value) (mems : List Int) (c : Int)
    (h : AssocMap.find s.valMem I = none) (hc : s.currInd ≤ c) :
    Grows s { s with currInd := c, valMem := AssocMap.assign s.valMem I mems } := by
  refine ⟨hc, fun _ _ h => h, ?_, ⟨[], by simp⟩⟩
  intro w m hw
  have hne : I ≠ w := by
    intro e; subst e; rw [h] at hw; cases hw
  simp [AssocMap.find_assign_of_ne _ _ _ _ hne, hw]

theorem grows_allocaEmit (mems : List Int) (I : Value) (s : PADriver) :
    Grows s (allocaEmit mems I s) := by
  induction mems generalizing s with
  | nil => exact Grows.refl s
  | cons m rest ih =>
      simp only [allocaEmit]
      exact (grows_Value2Int s I).trans ((grows_addAddr _ _ _).trans (ih _))

theorem grows_caseAlloca (s : PADriver) (I : Value) : Grows s (s.caseAlloca I) := by
  cases h : AssocMap.find s.valMem I with
  | none =>
      rw [caseAlloca_first s I h]
      exact (grows_mint_cache s I _ _ h (by omega)).trans (grows_allocaEmit _ _ _)
  | some mems =>
      rw [caseAlloca_cached s I mems h]
      exact grows_allocaEmit _ _ _

theorem grows_caseMalloc {s t : PADriver} {I : Value} (h : s.caseMalloc I = .ok t) :
    Grows s t := by
  cases hf : AssocMap.find s.valMem I with
  | none =>
      rw [caseMalloc_first s _ I hf rfl] at h
      cases h
      exact (grows_mint_cache s I _ _ hf (by omega)).trans
        ((grows_Value2Int _ _).trans (grows_addAddr _ _ _))
  | some mems =>
      rw [caseMalloc_cached s I mems hf] at h
      cases hb : mems[0]? with
      | none => rw [hb] at h; cases h
      | some b =>
          rw [hb] at h
          cases h
          exact (grows_Value2Int _ _).trans (grows_addAddr _ _ _)

theorem grows_fallback (s : PADriver) (I v : Value) :
    Grows s (((s.Value2Int I).2.Value2Int v).2.addBase (s.Value2Int I).1
      ((s.Value2Int I).2.Value2Int v).1) :=
  (grows_Value2Int s I).trans ((grows_Value2Int _ v).trans (grows_addBase _ _ _))

theorem grows_caseGetElementPtr {s t : PADriver} {I v : Value} {indices : List IndexOperand}
    (h : s.caseGetElementPtr I v indices = .ok t) : Grows s t := by
  cases hs : v.type.getElementType.isStructTy with
  | false =>
      rw [caseGetElementPtr_fallback s I v indices (Or.inl hs)] at h
      cases h
      exact grows_fallback s I v
  | true =>
      cases hf : AssocMap.find s.valMem v with
      | none =>
          rw [caseGetElementPtr_fallback s I v indices (Or.inr hf)] at h
          cases h
          exact grows_fallback s I v
      | some mems =>
          rw [caseGetElementPtr_struct s I v indices mems hs hf] at h
          cases hp : gepPos indices 0 0 with
          | error e => rw [hp] at h; cases h
          | ok pos =>
              rw [hp] at h
              cases hb : mems[pos]? with
              | none => simp only [hb] at h; cases h
              | some b =>
                  simp only [hb] at h
                  cases h
                  exact (grows_Value2Int _ _).trans (grows_addBase _ _ _)

theorem grows_caseBitCast (s : PADriver) (I v : Value) : Grows s (s.caseBitCast I v) := by
  rw [caseBitCast_eq]
  split
  · exact (grows_Value2Int s I).trans ((grows_Value2Int _ v).trans (grows_addBase _ _ _))
  · exact Grows.refl s

theorem grows_caseStore (s : PADriver) (v ptr : Value) : Grows s (s.caseStore v ptr) := by
  rw [caseStore_eq]
  split
  · exact (grows_Value2Int s ptr).trans ((grows_Value2Int _ v).trans (grows_addStore _ _ _))
  · exact Grows.refl s

theorem grows_caseLoad (s : PADriver) (I ptr : Value) : Grows s (s.caseLoad I ptr) := by
  rw [caseLoad_eq]
  exact (grows_Value2Int s I).trans ((grows_Value2Int _ ptr).trans (grows_addLoad _ _ _))

theorem grows_processInstruction {s t : PADriver} {inst : Instruction}
    (h : s.processInstruction inst = .ok t) : Grows s t := by
  cases inst with
  | Call I f =>
      cases f with
      | none => simp only [processInstruction] at h; cases h; exact Grows.refl s
      | some name =>
          simp only [processInstruction] at h
          split at h
          · exact grows_caseMalloc h
          · cases h; exact Grows.refl s
  | Alloca I => simp only [processInstruction] at h; cases h; exact grows_caseAlloca s I
  | GetElementPtr I v indices =>
      simp only [processInstruction] at h; exact grows_caseGetElementPtr h
  | BitCast I v => simp only [processInstruction] at h; cases h; exact grows_caseBitCast s I v
  | Store I v ptr => simp only [processInstruction] at h; cases h; exact grows_caseStore s v ptr
  | Load I ptr => simp only [processInstruction] at h; cases h; exact grows_caseLoad s I ptr
  | Other I => simp only [processInstruction] at h; cases h; exact Grows.refl s

theorem grows_processBlock {s t : PADriver} {BB : BasicBlock}
    (h : s.processBlock BB = .ok t) : Grows s t := by
  induction BB generalizing s with
  | nil => simp only [processBlock] at h; cases h; exact Grows.refl _
  | cons inst rest ih =>
      simp only [processBlock] at h
      cases h1 : s.processInstruction inst with
      | error e => rw [h1] at h; cases h
      | ok s1 =>
          rw [h1] at h
          exact (grows_processInstruction h1).trans (ih h)

end PADriver

theorem grows_applyOp {s t : PADriver} {op : Op} {ids : List Int}
    (h : applyOp s op = .ok (ids, t)) : PADriver.Grows s t := by
  cases op with
  | Value2Int v => simp only [applyOp] at h; cases h; exact PADriver.grows_Value2Int s v
  | getNewMem => simp only [applyOp] at h; cases h; exact PADriver.grows_getNewMem s
  | process inst =>
      simp only [applyOp] at h
      cases h1 : s.processInstruction inst with
      | error e => rw [h1] at h; cases h
      | ok s1 =>
          rw [h1] at h
          cases h
          exact PADriver.grows_processInstruction h1

theorem grows_applyOps {s t : PADriver} {ops : List Op} {ids : List Int}
    (h : applyOps s ops = .ok (ids, t)) : PADriver.Grows s t := by
  induction ops generalizing s ids with
  | nil => simp only [applyOps] at h; cases h; exact PADriver.Grows.refl _
  | cons op rest ih =>
      simp only [applyOps] at h
      cases h1 : applyOp s op with
      | error e => rw [h1] at h; cases h
      | ok r =>
          obtain ⟨ids0, s1⟩ := r
          rw [h1] at h
          simp only at h
          cases h2 : applyOps s1 rest with
          | error e => rw [h2] at h; cases h
          | ok r2 =>
              obtain ⟨ids1, s2⟩ := r2
              rw [h2] at h
              cases h
              exact (grows_applyOp h1).trans (ih h2)

namespace PADriver

/-! ## The invariant of the id space -/

theorem WF_init : WF init := by
  refine ⟨le_refl _, ?_, ?_, ?_, ?_, ?_, ?_, ?_⟩ <;> intros <;> simp_all [init, AssocMap.find]

/-- The call `Value2Int(v)` keeps the invariant. -/
theorem WF_Value2Int {s : PADriver} (h : WF s) (v : Value) : WF (s.Value2Int v).2 := by
  cases hf : AssocMap.find s.valMap v with
  | some n => rw [Value2Int_of_find hf]; exact h
  | none =>
      rw [Value2Int_of_not_find hf]
      have h0 := h.counter_nonneg
      refine ⟨?_, ?_, ?_, ?_, ?_, ?_, ?_, ?_⟩
      · show 0 ≤ s.currInd + 1
        omega
      · intro w n hw
        simp only [AssocMap.find_assign] at hw
        show 1 ≤ n ∧ n ≤ s.currInd + 1
        split at hw
        · cases hw; omega
        · have := h.valMap_range w n hw; omega
      · intro w mems hw m hm
        have := h.valMem_range w mems hw m hm
        show 1 ≤ m ∧ m ≤ s.currInd + 1
        omega
      · intro c hc x hx
        have := h.calls_range c hc x hx
        show 1 ≤ x ∧ x ≤ s.currInd + 1
        omega
      · intro w1 w2 n h1 h2
        simp only [AssocMap.find_assign] at h1 h2
        split at h1 <;> split at h2
        · simp_all
        · cases h1
          have := h.valMap_range w2 _ h2; omega
        · cases h2
          have := h.valMap_range w1 _ h1; omega
        · exact h.valMap_inj w1 w2 n h1 h2
      · exact h.valMem_nodup
      · exact h.valMem_disjoint
      · intro w n u mems hw hu hmem
        simp only [AssocMap.find_assign] at hw
        split at hw
        · cases hw
          have := h.valMem_range u mems hu _ hmem; omega
        · exact h.valMap_valMem w n u mems hw hu hmem

/-- The id `Value2Int` returns lies between 1 and the counter. -/
theorem Value2Int_range {s : PADriver} (h : WF s) (v : Value) :
    1 ≤ (s.Value2Int v).1 ∧ (s.Value2Int v).1 ≤ (s.Value2Int v).2.currInd :=
  (WF_Value2Int h v).valMap_range v _ (find_Value2Int_self s v)

/-- Caching ids above the old counter for a site keeps the invariant. -/
theorem WF_mint_cache {s : PADriver} (h : WF s) (I : Value) (mems : List Int) (c : Int)
    (hc : s.currInd ≤ c)
    (hfresh : ∀ m ∈ mems, s.currInd < m ∧ m ≤ c) (hnd : mems.Nodup) :
    WF { s with currInd := c, valMem := AssocMap.assign s.valMem I mems } := by
  have h0 := h.counter_nonneg
  refine ⟨?_, ?_, ?_, ?_, ?_, ?_, ?_, ?_⟩
  · show 0 ≤ c
    omega
  · intro w n hw
    have := h.valMap_range w n hw
    show 1 ≤ n ∧ n ≤ c
    omega
  · intro w ms hw m hm
    simp only [AssocMap.find_assign] at hw
    show 1 ≤ m ∧ m ≤ c
    split at hw
    · cases hw
      have := hfresh m hm; omega
    · have := h.valMem_range w ms hw m hm; omega
  · intro x hx y hy
    have := h.calls_range x hx y hy
    show 1 ≤ y ∧ y ≤ c
    omega
  · exact h.valMap_inj
  · intro w ms hw
    simp only [AssocMap.find_assign] at hw
    split at hw
    · cases hw; exact hnd
    · exact h.valMem_nodup w ms hw
  · intro w1 w2 m1 m2 hne h1 h2 m hm hm2
    simp only [AssocMap.find_assign] at h1 h2
    split at h1 <;> split at h2
    · simp_all
    · cases h1
      have := hfresh m hm
      have := h.valMem_range w2 m2 h2 m hm2; omega
    · cases h2
      have := hfresh m hm2
      have := h.valMem_range w1 m1 h1 m hm; omega
    · exact h.valMem_disjoint w1 w2 m1 m2 hne h1 h2 m hm hm2
  · intro w n u ms hw hu hmem
    simp only [AssocMap.find_assign] at hu
    split at hu
    · cases hu
      have := hfresh n hmem
      have := h.valMap_range w n hw; omega
    · exact h.valMap_valMem w n u ms hw hu hmem

/-- Solver calls whose ids are in range keep the invariant. -/
theorem WF_calls {s t : PADriver} (h : WF s) (hc : t.currInd = s.currInd)
    (hm : t.valMap = s.valMap) (hmem : t.valMem = s.valMem)
    (hcalls : ∀ c ∈ t.pointerAnalysis,
      c ∈ s.pointerAnalysis ∨ ∀ x ∈ c.args, 1 ≤ x ∧ x ≤ s.currInd) : WF t := by
  refine ⟨?_, ?_, ?_, ?_, ?_, ?_, ?_, ?_⟩
  · rw [hc]; exact h.counter_nonneg
  · rw [hc, hm]; exact h.valMap_range
  · rw [hc, hmem]; exact h.valMem_range
  · intro c hcm x hx
    rw [hc]
    rcases hcalls c hcm with h1 | h1
    · exact h.calls_range c h1 x hx
    · exact h1 x hx
  · rw [hm]; exact h.valMap_inj
  · rw [hmem]; exact h.valMem_nodup
  · rw [hmem]; exact h.valMem_disjoint
  · rw [hm, hmem]; exact h.valMap_valMem

theorem WF_addAddr {s : PADriver} (h : WF s) (a b : Int)
    (ha : 1 ≤ a ∧ a ≤ s.currInd) (hb : 1 ≤ b ∧ b ≤ s.currInd) : WF (s.addAddr a b) := by
  refine WF_calls h rfl rfl rfl ?_
  intro c hc
  simp only [addAddr, List.mem_append, List.mem_singleton] at hc
  rcases hc with hc | hc
  · exact Or.inl hc
  · subst hc
    right
    intro x hx
    simp only [SolverCall.args, List.mem_cons, List.mem_singleton, List.not_mem_nil,
      or_false] at hx
    rcases hx with hx | hx <;> subst hx <;> assumption

theorem WF_addBase {s : PADriver} (h : WF s) (a b : Int)
    (ha : 1 ≤ a ∧ a ≤ s.currInd) (hb : 1 ≤ b ∧ b ≤ s.currInd) : WF (s.addBase a b) := by
  refine WF_calls h rfl rfl rfl ?_
  intro c hc
  simp only [addBase, List.mem_append, List.mem_singleton] at hc
  rcases hc with hc | hc
  · exact Or.inl hc
  · subst hc
    right
    intro x hx
    simp only [SolverCall.args, List.mem_cons, List.mem_singleton, List.not_mem_nil,
      or_false] at hx
    rcases hx with hx | hx <;> subst hx <;> assumption

theorem WF_addLoad {s : PADriver} (h : WF s) (a b : Int)
    (ha : 1 ≤ a ∧ a ≤ s.currInd) (hb : 1 ≤ b ∧ b ≤ s.currInd) : WF (s.addLoad a b) := by
  refine WF_calls h rfl rfl rfl ?_
  intro c hc
  simp only [addLoad, List.mem_append, List.mem_singleton] at hc
  rcases hc with hc | hc
  · exact Or.inl hc
  · subst hc
    right
    intro x hx
    simp only [SolverCall.args, List.mem_cons, List.mem_singleton, List.not_mem_nil,
      or_false] at hx
    rcases hx with hx | hx <;> subst hx <;> assumption

theorem WF_addStore {s : PADriver} (h : WF s) (a b : Int)
    (ha : 1 ≤ a ∧ a ≤ s.currInd) (hb : 1 ≤ b ∧ b ≤ s.currInd) : WF (s.addStore a b) := by
  refine WF_calls h rfl rfl rfl ?_
  intro c hc
  simp only [addStore, List.mem_append, List.mem_singleton] at hc
  rcases hc with hc | hc
  · exact Or.inl hc
  · subst hc
    right
    intro x hx
    simp only [SolverCall.args, List.mem_cons, List.mem_singleton, List.not_mem_nil,
      or_false] at hx
    rcases hx with hx | hx <;> subst hx <;> assumption

/-- A pair of `Value2Int` calls followed by a submission of the two ids. -/
theorem WF_pair {s : PADriver} (h : WF s) (x y : Value) :
    1 ≤ (s.Value2Int x).1 ∧ (s.Value2Int x).1 ≤ ((s.Value2Int x).2.Value2Int y).2.currInd ∧
    1 ≤ ((s.Value2Int x).2.Value2Int y).1 ∧
    ((s.Value2Int x).2.Value2Int y).1 ≤ ((s.Value2Int x).2.Value2Int y).2.currInd ∧
    WF ((s.Value2Int x).2.Value2Int y).2 := by
  have h1 := WF_Value2Int h x
  have r1 := Value2Int_range h x
  have r2 := Value2Int_range h1 y
  have g := (grows_Value2Int (s.Value2Int x).2 y).counter
  exact ⟨r1.1, le_trans r1.2 g, r2.1, r2.2, WF_Value2Int h1 y⟩

theorem WF_allocaEmit {s : PADriver} (h : WF s) (mems : List Int) (I : Value)
    (hm : ∀ m ∈ mems, 1 ≤ m ∧ m ≤ s.currInd) : WF (allocaEmit mems I s) := by
  induction mems generalizing s with
  | nil => exact h
  | cons m rest ih =>
      simp only [allocaEmit]
      have g := (grows_Value2Int s I).counter
      have hm0 := hm m (List.mem_cons_self _ _)
      apply ih (WF_addAddr (WF_Value2Int h I) _ _ (Value2Int_range h I) ⟨hm0.1, by omega⟩)
      intro x hx
      have := hm x (List.mem_cons_of_mem _ hx)
      show 1 ≤ x ∧ x ≤ (s.Value2Int I).2.currInd
      omega

/-- The ids `c + 1, ..., c + n` are distinct and lie above `c`. -/
theorem fresh_ids (c : Int) (n : Nat) :
    ((List.range n).map (fun i : Nat => c + 1 + (i : Int))).Nodup ∧
    ∀ m ∈ (List.range n).map (fun i : Nat => c + 1 + (i : Int)), c < m ∧ m ≤ c + (n : Int) := by
  constructor
  · apply List.Nodup.map
    · intro i j hij
      simp only at hij
      omega
    · exact List.nodup_range n
  · intro m hm
    simp only [List.mem_map, List.mem_range] at hm
    obtain ⟨i, hi, rfl⟩ := hm
    omega

theorem WF_caseAlloca {s : PADriver} (h : WF s) (I : Value) : WF (s.caseAlloca I) := by
  cases hf : AssocMap.find s.valMem I with
  | none =>
      rw [caseAlloca_first s I hf]
      have hfr := fresh_ids s.currInd (allocaNumElems I.type.getElementType)
      have h0 := h.counter_nonneg
      apply WF_allocaEmit (WF_mint_cache h I _ _ (by omega) hfr.2 hfr.1)
      intro m hm
      have := hfr.2 m hm
      show 1 ≤ m ∧ m ≤ s.currInd + (allocaNumElems I.type.getElementType : Int)
      omega
  | some mems =>
      rw [caseAlloca_cached s I mems hf]
      exact WF_allocaEmit h mems I (h.valMem_range I mems hf)

theorem WF_caseMalloc {s t : PADriver} {I : Value} (h : WF s)
    (ht : s.caseMalloc I = .ok t) : WF t := by
  have h0 := h.counter_nonneg
  cases hf : AssocMap.find s.valMem I with
  | none =>
      rw [caseMalloc_first s _ I hf rfl] at ht
      cases ht
      have hw : WF { s with currInd := s.currInd + 1,
                            valMem := AssocMap.assign s.valMem I [s.currInd + 1] } := by
        apply WF_mint_cache h I _ _ (by omega)
        · intro m hm
          simp only [List.mem_singleton] at hm
          omega
        · simp
      have g := (grows_Value2Int { s with currInd := s.currInd + 1,
                                          valMem := AssocMap.assign s.valMem I [s.currInd + 1] }
        I).counter
      exact WF_addAddr (WF_Value2Int hw I) _ _ (Value2Int_range hw I)
        ⟨by omega, by simpa using g⟩
  | some mems =>
      rw [caseMalloc_cached s I mems hf] at ht
      cases hb : mems[0]? with
      | none => rw [hb] at ht; cases ht
      | some b =>
          rw [hb] at ht
          cases ht
          have hbm : b ∈ mems := List.getElem?_mem hb
          have r := h.valMem_range I mems hf b hbm
          have g := (grows_Value2Int s I).counter
          exact WF_addAddr (WF_Value2Int h I) _ _ (Value2Int_range h I) ⟨r.1, by omega⟩

theorem WF_fallback {s : PADriver} (h : WF s) (I v : Value) :
    WF (((s.Value2Int I).2.Value2Int v).2.addBase (s.Value2Int I).1
      ((s.Value2Int I).2.Value2Int v).1) := by
  obtain ⟨a1, a2, b1, b2, hw⟩ := WF_pair h I v
  exact WF_addBase hw _ _ ⟨a1, a2⟩ ⟨b1, b2⟩

theorem WF_caseGetElementPtr {s t : PADriver} {I v : Value} {indices : List IndexOperand}
    (h : WF s) (ht : s.caseGetElementPtr I v indices = .ok t) : WF t := by
  cases hs : v.type.getElementType.isStructTy with
  | false =>
      rw [caseGetElementPtr_fallback s I v indices (Or.inl hs)] at ht
      cases ht
      exact WF_fallback h I v
  | true =>
      cases hf : AssocMap.find s.valMem v with
      | none =>
          rw [caseGetElementPtr_fallback s I v indices (Or.inr hf)] at ht
          cases ht
          exact WF_fallback h I v
      | some mems =>
          rw [caseGetElementPtr_struct s I v indices mems hs hf] at ht
          cases hp : gepPos indices 0 0 with
          | error e => rw [hp] at ht; cases ht
          | ok pos =>
              rw [hp] at ht
              cases hb : mems[pos]? with
              | none => simp only [hb] at ht; cases ht
              | some b =>
                  simp only [hb] at ht
                  cases ht
                  have hbm : b ∈ mems := List.getElem?_mem hb
                  have r := h.valMem_range v mems hf b hbm
                  have g := (grows_Value2Int s I).counter
                  exact WF_addBase (WF_Value2Int h I) _ _ (Value2Int_range h I)
                    ⟨r.1, by omega⟩

theorem WF_caseBitCast {s : PADriver} (h : WF s) (I v : Value) : WF (s.caseBitCast I v) := by
  rw [caseBitCast_eq]
  split
  · exact WF_fallback h I v
  · exact h

theorem WF_caseStore {s : PADriver} (h : WF s) (v ptr : Value) : WF (s.caseStore v ptr) := by
  rw [caseStore_eq]
  split
  · obtain ⟨a1, a2, b1, b2, hw⟩ := WF_pair h ptr v
    exact WF_addStore hw _ _ ⟨a1, a2⟩ ⟨b1, b2⟩
  · exact h

theorem WF_caseLoad {s : PADriver} (h : WF s) (I ptr : Value) : WF (s.caseLoad I ptr) := by
  rw [caseLoad_eq]
  obtain ⟨a1, a2, b1, b2, hw⟩ := WF_pair h I ptr
  exact WF_addLoad hw _ _ ⟨a1, a2⟩ ⟨b1, b2⟩

theorem WF_processInstruction {s t : PADriver} {inst : Instruction} (h : WF s)
    (ht : s.processInstruction inst = .ok t) : WF t := by
  cases inst with
  | Call I f =>
      cases f with
      | none => simp only [processInstruction] at ht; cases ht; exact h
      | some name =>
          simp only [processInstruction] at ht
          split at ht
          · exact WF_caseMalloc h ht
          · cases ht; exact h
  | Alloca I => simp only [processInstruction] at ht; cases ht; exact WF_caseAlloca h I
  | GetElementPtr I v indices =>
      simp only [processInstruction] at ht; exact WF_caseGetElementPtr h ht
  | BitCast I v => simp only [processInstruction] at ht; cases ht; exact WF_caseBitCast h I v
  | Store I v ptr => simp only [processInstruction] at ht; cases ht; exact WF_caseStore h v ptr
  | Load I ptr => simp only [processInstruction] at ht; cases ht; exact WF_caseLoad h I ptr
  | Other I => simp only [processInstruction] at ht; cases ht; exact h

theorem WF_processBlock {s t : PADriver} {BB : BasicBlock} (h : WF s)
    (ht : s.processBlock BB = .ok t) : WF t := by
  induction BB generalizing s with
  | nil => simp only [processBlock] at ht; cases ht; exact h
  | cons inst rest ih =>
      simp only [processBlock] at ht
      cases h1 : s.processInstruction inst with
      | error e => rw [h1] at ht; cases ht
      | ok s1 =>
          rw [h1] at ht
          exact ih (WF_processInstruction h h1) ht

theorem WF_getNewMem {s : PADriver} (h : WF s) : WF s.getNewMem.2 := by
  have h0 := h.counter_nonneg
  refine ⟨?_, ?_, ?_, ?_, h.valMap_inj, h.valMem_nodup, h.valMem_disjoint, h.valMap_valMem⟩
  · show 0 ≤ s.currInd + 1
    omega
  · intro w n hw
    have := h.valMap_range w n hw
    show 1 ≤ n ∧ n ≤ s.currInd + 1
    omega
  · intro w ms hw m hm
    have := h.valMem_range w ms hw m hm
    show 1 ≤ m ∧ m ≤ s.currInd + 1
    omega
  · intro c hc x hx
    have := h.calls_range c hc x hx
    show 1 ≤ x ∧ x ≤ s.currInd + 1
    omega

end PADriver

/-- A run of operations keeps the invariant, and every id a direct call returned lies
between 1 and the final counter. -/
theorem WF_applyOps {s t : PADriver} {ops : List Op} {ids : List Int} (h : PADriver.WF s)
    (ht : applyOps s ops = .ok (ids, t)) :
    PADriver.WF t ∧ ∀ i ∈ ids, 1 ≤ i ∧ i ≤ t.currInd := by
  induction ops generalizing s ids with
  | nil =>
      simp only [applyOps] at ht
      cases ht
      exact ⟨h, by simp⟩
  | cons op rest ih =>
      simp only [applyOps] at ht
      cases h1 : applyOp s op with
      | error e => rw [h1] at ht; cases ht
      | ok r =>
          obtain ⟨ids0, s1⟩ := r
          rw [h1] at ht
          simp only at ht
          cases h2 : applyOps s1 rest with
          | error e => rw [h2] at ht; cases ht
          | ok r2 =>
              obtain ⟨ids1, s2⟩ := r2
              rw [h2] at ht
              cases ht
              have g := (grows_applyOps h2).counter
              have hs1 : PADriver.WF s1 ∧ ∀ i ∈ ids0, 1 ≤ i ∧ i ≤ s1.currInd := by
                cases op with
                | Value2Int v =>
                    simp only [applyOp] at h1
                    cases h1
                    refine ⟨PADriver.WF_Value2Int h v, ?_⟩
                    intro i hi
                    simp only [List.mem_singleton] at hi
                    subst hi
                    exact PADriver.Value2Int_range h v
                | getNewMem =>
                    simp only [applyOp] at h1
                    cases h1
                    refine ⟨PADriver.WF_getNewMem h, ?_⟩
                    intro i hi
                    simp only [List.mem_singleton] at hi
                    subst hi
                    have := h.counter_nonneg
                    simp only [PADriver.getNewMem]
                    omega
                | process inst =>
                    simp only [applyOp] at h1
                    cases h3 : s.processInstruction inst with
                    | error e => rw [h3] at h1; cases h1
                    | ok s3 =>
                        rw [h3] at h1
                        cases h1
                        exact ⟨PADriver.WF_processInstruction h h3, by simp⟩
              obtain ⟨hw2, hi2⟩ := ih hs1.1 h2
              refine ⟨hw2, ?_⟩
              intro i hi
              rcases List.mem_append.mp hi with hi | hi
              · have := hs1.2 i hi
                omega
              · exact hi2 i hi

namespace PADriver

/-! ## Facts about single arms used by the claims -/

theorem Value2Int_valMem (s : PADriver) (v : Value) : (s.Value2Int v).2.valMem = s.valMem := by
  cases h : AssocMap.find s.valMap v with
  | some n => rw [Value2Int_of_find h]
  | none => rw [Value2Int_of_not_find h]

theorem Value2Int_pointerAnalysis (s : PADriver) (v : Value) :
    (s.Value2Int v).2.pointerAnalysis = s.pointerAnalysis := by
  cases h : AssocMap.find s.valMap v with
  | some n => rw [Value2Int_of_find h]
  | none => rw [Value2Int_of_not_find h]

theorem allocaEmit_valMem (mems : List Int) (I : Value) (s : PADriver) :
    (allocaEmit mems I s).valMem = s.valMem := by
  rw [allocaEmit_eq]
  split
  · rfl
  · exact Value2Int_valMem s I

theorem find_allocaEmit_self (mems : List Int) (I : Value) (s : PADriver) (h : mems ≠ []) :
    AssocMap.find (allocaEmit mems I s).valMap I = some (s.Value2Int I).1 := by
  rw [allocaEmit_eq, if_neg h]
  exact find_Value2Int_self s I

/-- A visit of an `alloca` whose sequence is cached and, unless the sequence is empty,
whose result has an id: nothing is minted, one `addAddr` per cached id is submitted. -/
theorem caseAlloca_revisit (s : PADriver) (I : Value) (mems : List Int)
    (hm : AssocMap.find s.valMem I = some mems)
    (hv : mems ≠ [] → ∃ a, AssocMap.find s.valMap I = some a) :
    (s.caseAlloca I).valMem = s.valMem ∧ (s.caseAlloca I).valMap = s.valMap ∧
    (s.caseAlloca I).currInd = s.currInd ∧
    (s.caseAlloca I).pointerAnalysis =
      s.pointerAnalysis ++ mems.map (SolverCall.addAddr (s.Value2Int I).1) := by
  rw [caseAlloca_cached s I mems hm]
  by_cases he : mems = []
  · subst he
    simp [allocaEmit]
  · obtain ⟨a, ha⟩ := hv he
    rw [allocaEmit_of_find mems I s a ha, Value2Int_of_find ha]
    exact ⟨rfl, rfl, rfl, rfl⟩

/-- A visit of a malloc call whose one-element sequence is cached and whose result has an
id: nothing is minted, one `addAddr` is submitted. -/
theorem caseMalloc_revisit (s : PADriver) (I : Value) (b a : Int)
    (hm : AssocMap.find s.valMem I = some [b]) (hv : AssocMap.find s.valMap I = some a) :
    s.caseMalloc I = .ok (s.addAddr a b) := by
  rw [caseMalloc_cached s I [b] hm, Value2Int_of_find hv]
  rfl

/-- After a visit of an `alloca` the site has a cached sequence and, unless the sequence
is empty, its result has an id. -/
theorem caseAlloca_cache (s : PADriver) (I : Value) :
    ∃ mems, AssocMap.find (s.caseAlloca I).valMem I = some mems ∧
      (mems ≠ [] → ∃ a, AssocMap.find (s.caseAlloca I).valMap I = some a) := by
  cases hf : AssocMap.find s.valMem I with
  | none =>
      rw [caseAlloca_first s I hf]
      refine ⟨_, ?_, fun hne => ⟨_, find_allocaEmit_self _ I _ hne⟩⟩
      rw [allocaEmit_valMem]
      exact AssocMap.find_assign_self _ _ _
  | some mems =>
      rw [caseAlloca_cached s I mems hf]
      refine ⟨mems, ?_, fun hne => ⟨_, find_allocaEmit_self _ I _ hne⟩⟩
      rw [allocaEmit_valMem]
      exact hf

/-- After a successful visit of a malloc call the site has a cached one-element sequence
and its result has an id. -/
theorem caseMalloc_cache (s t : PADriver) (I : Value)
    (hlen : ∀ mems, AssocMap.find s.valMem I = some mems → mems.length = 1)
    (h : s.caseMalloc I = .ok t) :
    ∃ b a, AssocMap.find t.valMem I = some [b] ∧ AssocMap.find t.valMap I = some a := by
  cases hf : AssocMap.find s.valMem I with
  | none =>
      rw [caseMalloc_first s _ I hf rfl] at h
      simp only [Except.ok.injEq] at h
      rw [← h]
      refine ⟨s.currInd + 1, _, ?_, find_Value2Int_self _ I⟩
      show AssocMap.find (Value2Int _ I).2.valMem I = _
      rw [Value2Int_valMem]
      exact AssocMap.find_assign_self _ _ _
  | some mems =>
      have hl := hlen mems hf
      obtain ⟨b, rfl⟩ := List.length_eq_one.mp hl
      rw [caseMalloc_cached s I [b] hf] at h
      simp only [List.getElem?_cons_zero, Except.ok.injEq] at h
      rw [← h]
      refine ⟨b, _, ?_, find_Value2Int_self s I⟩
      show AssocMap.find (Value2Int s I).2.valMem I = _
      rw [Value2Int_valMem]
      exact hf

theorem allocaEmit_pointerAnalysis (mems : List Int) (I : Value) (s : PADriver) :
    (allocaEmit mems I s).pointerAnalysis =
      s.pointerAnalysis ++ mems.map (SolverCall.addAddr (s.Value2Int I).1) := by
  rw [allocaEmit_eq]
  split
  · next h => subst h; simp
  · show (s.Value2Int I).2.pointerAnalysis ++ _ = _
    rw [Value2Int_pointerAnalysis]

/-- The first visit of an `alloca` with `n` memory objects. -/
theorem caseAlloca_first_spec (s : PADriver) (I : Value) (n : Nat)
    (hfirst : AssocMap.find s.valMem I = none)
    (hn : allocaNumElems I.type.getElementType = n) :
    ∃ a,
      AssocMap.find (s.caseAlloca I).valMem I = some (idsAfter s.currInd n) ∧
      (∀ m ∈ idsAfter s.currInd n, s.currInd < m ∧ m ≤ (s.caseAlloca I).currInd) ∧
      (s.caseAlloca I).pointerAnalysis =
        s.pointerAnalysis ++ (idsAfter s.currInd n).map (SolverCall.addAddr a) ∧
      (0 < n → AssocMap.find (s.caseAlloca I).valMap I = some a) := by
  rw [caseAlloca_first s I hfirst, hn]
  refine ⟨_, ?_, ?_, allocaEmit_pointerAnalysis _ I _, ?_⟩
  · rw [allocaEmit_valMem]
    exact AssocMap.find_assign_self _ _ _
  · intro m hm
    have := (fresh_ids s.currInd n).2 m hm
    have g := (grows_allocaEmit (idsAfter s.currInd n) I
      { s with currInd := s.currInd + (n : Int),
               valMem := AssocMap.assign s.valMem I (idsAfter s.currInd n) }).counter
    have g2 : s.currInd + (n : Int) ≤ _ := g
    exact ⟨this.1, le_trans this.2 g2⟩
  · intro hpos
    apply find_allocaEmit_self
    intro he
    have hl := congrArg List.length he
    simp at hl
    omega

/-- The field-sensitive branch with a constant index at position 1 inside the cache. -/
theorem caseGetElementPtr_field (s : PADriver) (I v : Value) (indices : List IndexOperand)
    (mems : List Int) (i : Nat) (b : Int)
    (hstruct : v.type.getElementType.isStructTy = true)
    (hcached : AssocMap.find s.valMem v = some mems)
    (hindex : indices[1]? = some (.ConstantInt i))
    (h32 : i < 2 ^ 32) (hb : mems[i]? = some b) :
    s.caseGetElementPtr I v indices =
      .ok ((s.Value2Int I).2.addBase (s.Value2Int I).1 b) := by
  rw [caseGetElementPtr_struct s I v indices mems hstruct hcached, gepPos_eq, hindex]
  simp only [Nat.mod_eq_of_lt h32, hb]

/-- The field-sensitive branch reads `mems[pos]` without a bounds check. -/
theorem caseGetElementPtr_out_of_range (s : PADriver) (I v : Value)
    (indices : List IndexOperand) (mems : List Int) (pos : Nat)
    (hstruct : v.type.getElementType.isStructTy = true)
    (hcached : AssocMap.find s.valMem v = some mems)
    (hpos : gepPos indices 0 0 = .ok pos) (hout : mems.length ≤ pos) :
    s.caseGetElementPtr I v indices = .error Fault.outOfBounds := by
  rw [caseGetElementPtr_struct s I v indices mems hstruct hcached, hpos]
  simp only [List.getElem?_eq_none hout]

/-! ## The loops over blocks, functions and modules -/

theorem processBlock_append (s : PADriver) (a b : List Instruction) :
    s.processBlock (a ++ b) =
      (match s.processBlock a with
        | .error e => .error e
        | .ok s1 => s1.processBlock b) := by
  induction a generalizing s with
  | nil => rfl
  | cons inst rest ih =>
      simp only [List.cons_append, processBlock]
      cases s.processInstruction inst with
      | error e => rfl
      | ok s1 => exact ih s1

theorem processFunction_append (s : PADriver) (a b : List BasicBlock) :
    s.processFunction (a ++ b) =
      (match s.processFunction a with
        | .error e => .error e
        | .ok s1 => s1.processFunction b) := by
  induction a generalizing s with
  | nil => rfl
  | cons BB rest ih =>
      simp only [List.cons_append, processFunction]
      cases s.processBlock BB with
      | error e => rfl
      | ok s1 => exact ih s1

theorem processModule_append (s : PADriver) (a b : List Func) :
    s.processModule (a ++ b) =
      (match s.processModule a with
        | .error e => .error e
        | .ok s1 => s1.processModule b) := by
  induction a generalizing s with
  | nil => rfl
  | cons F rest ih =>
      simp only [List.cons_append, processModule]
      cases s.processFunction F with
      | error e => rfl
      | ok s1 => exact ih s1

/-- Replacing one block by a block that is processed alike does not change the function. -/
theorem processFunction_congr (Bs1 Bs2 : List BasicBlock) (BB BB2 : BasicBlock)
    (h : ∀ s : PADriver, s.processBlock BB = s.processBlock BB2) (s : PADriver) :
    s.processFunction (Bs1 ++ BB :: Bs2) = s.processFunction (Bs1 ++ BB2 :: Bs2) := by
  rw [processFunction_append, processFunction_append]
  cases s.processFunction Bs1 with
  | error e => rfl
  | ok s1 => simp only [processFunction, h s1]

/-- Replacing one function by a function that is processed alike does not change the
module. -/
theorem processModule_congr (Fs1 Fs2 : List Func) (F F2 : Func)
    (h : ∀ s : PADriver, s.processFunction F = s.processFunction F2) (s : PADriver) :
    s.processModule (Fs1 ++ F :: Fs2) = s.processModule (Fs1 ++ F2 :: Fs2) := by
  rw [processModule_append, processModule_append]
  cases s.processModule Fs1 with
  | error e => rfl
  | ok s1 => simp only [processModule, h s1]

/-- A module is processed like the sequence of all its instructions. -/
theorem processFunction_eq_processBlock (s : PADriver) (F : Func) :
    s.processFunction F = s.processBlock F.flatten := by
  induction F generalizing s with
  | nil => rfl
  | cons BB rest ih =>
      simp only [processFunction, List.flatten_cons, processBlock_append]
      cases s.processBlock BB with
      | error e => rfl
      | ok s1 => exact ih s1

theorem processModule_eq_processBlock (s : PADriver) (M : Module) :
    s.processModule M = s.processBlock (M.flatten).flatten := by
  induction M generalizing s with
  | nil => rfl
  | cons F rest ih =>
      simp only [processModule, List.flatten_cons, List.flatten_append, processBlock_append,
        processFunction_eq_processBlock]
      cases s.processBlock F.flatten with
      | error e => rfl
      | ok s1 => exact ih s1

theorem processInstruction_of_isInert (s : PADriver) (inst : Instruction)
    (h : inst.isInert = true) : s.processInstruction inst = .ok s := by
  cases inst with
  | Call I f =>
      cases f with
      | none => rfl
      | some name =>
          have hne : name ≠ "malloc" := by
            simpa [Instruction.isInert] using h
          simp [processInstruction, hne]
  | Other I => rfl
  | Alloca I => simp [Instruction.isInert] at h
  | GetElementPtr I v indices => simp [Instruction.isInert] at h
  | BitCast I v => simp [Instruction.isInert] at h
  | Store I v ptr => simp [Instruction.isInert] at h
  | Load I ptr => simp [Instruction.isInert] at h

/-! ## Every arm is a sequence of elementary state changes -/

theorem micros_trans {s t u : PADriver} (h1 : Micros s t) (h2 : Micros t u) : Micros s u := by
  induction h1 with
  | done s => exact h2
  | step s t w hm _ ih => exact Micros.step s t u hm (ih h2)

theorem micros_single {s t : PADriver} (h : Micro s t) : Micros s t :=
  Micros.step s t t h (Micros.done t)

theorem recorded_of_valMap {s : PADriver} {v : Value} {x : Int}
    (h : AssocMap.find s.valMap v = some x) : Recorded s x :=
  Or.inl ⟨v, h⟩

theorem recorded_of_valMem {s : PADriver} {x : Int} (v : Value) (mems : List Int)
    (h : AssocMap.find s.valMem v = some mems) (hx : x ∈ mems) : Recorded s x :=
  Or.inr ⟨v, mems, h, hx⟩

/-- Recorded ids stay recorded. -/
theorem Recorded.mono {s t : PADriver} {x : Int} (g : Grows s t) (h : Recorded s x) :
    Recorded t x := by
  rcases h with ⟨v, hv⟩ | ⟨v, mems, hv, hx⟩
  · exact Or.inl ⟨v, g.valMap v x hv⟩
  · exact Or.inr ⟨v, mems, g.valMem v mems hv, hx⟩

theorem args_recorded {s : PADriver} {c : SolverCall} {a b : Int} (hc : c.args = [a, b])
    (ha : Recorded s a) (hb : Recorded s b) : ∀ x ∈ c.args, Recorded s x := by
  intro x hx
  rw [hc] at hx
  simp only [List.mem_cons, List.mem_singleton, List.not_mem_nil, or_false] at hx
  rcases hx with rfl | rfl
  · exact ha
  · exact hb

theorem micro_addAddr (s : PADriver) (a b : Int) (ha : Recorded s a) (hb : Recorded s b) :
    Micro s (s.addAddr a b) :=
  Micro.submit s _ (SolverCall.addAddr a b) rfl (args_recorded rfl ha hb) rfl rfl rfl rfl

theorem micro_addBase (s : PADriver) (a b : Int) (ha : Recorded s a) (hb : Recorded s b) :
    Micro s (s.addBase a b) :=
  Micro.submit s _ (SolverCall.addBase a b) rfl (args_recorded rfl ha hb) rfl rfl rfl rfl

theorem micro_addLoad (s : PADriver) (a b : Int) (ha : Recorded s a) (hb : Recorded s b) :
    Micro s (s.addLoad a b) :=
  Micro.submit s _ (SolverCall.addLoad a b) rfl (args_recorded rfl ha hb) rfl rfl rfl rfl

theorem micro_addStore (s : PADriver) (a b : Int) (ha : Recorded s a) (hb : Recorded s b) :
    Micro s (s.addStore a b) :=
  Micro.submit s _ (SolverCall.addStore a b) rfl (args_recorded rfl ha hb) rfl rfl rfl rfl

/-- After two calls of `Value2Int` both returned ids are recorded. -/
theorem recorded_pair (s : PADriver) (x y : Value) :
    Recorded ((s.Value2Int x).2.Value2Int y).2 (s.Value2Int x).1 ∧
    Recorded ((s.Value2Int x).2.Value2Int y).2 ((s.Value2Int x).2.Value2Int y).1 :=
  ⟨recorded_of_valMap ((grows_Value2Int _ y).valMap x _ (find_Value2Int_self s x)),
    recorded_of_valMap (find_Value2Int_self _ y)⟩

theorem micros_pair (s t : PADriver) (x y : Value)
    (h : Micro ((s.Value2Int x).2.Value2Int y).2 t) : Micros s t :=
  Micros.step _ _ _ (Micro.identify s x)
    (Micros.step _ _ _ (Micro.identify _ y) (micros_single h))

theorem micros_allocaEmit (mems : List Int) (I : Value) (s : PADriver) (full : List Int)
    (hfull : AssocMap.find s.valMem I = some full) (hsub : ∀ m ∈ mems, m ∈ full) :
    Micros s (allocaEmit mems I s) := by
  induction mems generalizing s with
  | nil => exact Micros.done s
  | cons m rest ih =>
      simp only [allocaEmit]
      have hv : AssocMap.find (s.Value2Int I).2.valMem I = some full := by
        rw [Value2Int_valMem]; exact hfull
      refine Micros.step _ _ _ (Micro.identify s I) (Micros.step _ _ _
        (micro_addAddr _ _ m (recorded_of_valMap (find_Value2Int_self s I))
          (recorded_of_valMem I full hv (hsub m (List.mem_cons_self _ _)))) ?_)
      exact ih _ hv (fun x hx => hsub x (List.mem_cons_of_mem _ hx))

theorem micros_caseAlloca (s : PADriver) (I : Value) : Micros s (s.caseAlloca I) := by
  cases hf : AssocMap.find s.valMem I with
  | none =>
      rw [caseAlloca_first s I hf]
      refine Micros.step _ _ _ (Micro.mint s I (allocaNumElems I.type.getElementType) hf) ?_
      exact micros_allocaEmit _ I _ _ (AssocMap.find_assign_self _ _ _) (fun _ h => h)
  | some mems =>
      rw [caseAlloca_cached s I mems hf]
      exact micros_allocaEmit mems I s mems hf (fun _ h => h)

theorem idsAfter_one (c : Int) : idsAfter c 1 = [c + 1] := by
  simp [idsAfter, List.range_succ]

theorem micros_caseMalloc {s t : PADriver} {I : Value} (h : s.caseMalloc I = .ok t) :
    Micros s t := by
  cases hf : AssocMap.find s.valMem I with
  | none =>
      have hm := Micro.mint s I 1 hf
      rw [idsAfter_one, Nat.cast_one] at hm
      rw [caseMalloc_first s _ I hf rfl] at h
      cases h
      refine Micros.step _ _ _ hm (Micros.step _ _ _ (Micro.identify _ I) (micros_single ?_))
      refine micro_addAddr _ _ _ (recorded_of_valMap (find_Value2Int_self _ I)) ?_
      refine recorded_of_valMem I [s.currInd + 1] ?_ (by simp)
      rw [Value2Int_valMem]
      exact AssocMap.find_assign_self _ _ _
  | some mems =>
      rw [caseMalloc_cached s I mems hf] at h
      cases hb : mems[0]? with
      | none => rw [hb] at h; cases h
      | some b =>
          rw [hb] at h
          cases h
          refine Micros.step _ _ _ (Micro.identify s I) (micros_single ?_)
          refine micro_addAddr _ _ _ (recorded_of_valMap (find_Value2Int_self s I)) ?_
          refine recorded_of_valMem I mems ?_ (List.getElem?_mem hb)
          rw [Value2Int_valMem]
          exact hf

theorem micros_fallback (s : PADriver) (I v : Value) :
    Micros s (((s.Value2Int I).2.Value2Int v).2.addBase (s.Value2Int I).1
      ((s.Value2Int I).2.Value2Int v).1) :=
  micros_pair s _ I v (micro_addBase _ _ _ (recorded_pair s I v).1 (recorded_pair s I v).2)

theorem micros_caseGetElementPtr {s t : PADriver} {I v : Value} {indices : List IndexOperand}
    (h : s.caseGetElementPtr I v indices = .ok t) : Micros s t := by
  cases hs : v.type.getElementType.isStructTy with
  | false =>
      rw [caseGetElementPtr_fallback s I v indices (Or.inl hs)] at h
      cases h
      exact micros_fallback s I v
  | true =>
      cases hf : AssocMap.find s.valMem v with
      | none =>
          rw [caseGetElementPtr_fallback s I v indices (Or.inr hf)] at h
          cases h
          exact micros_fallback s I v
      | some mems =>
          rw [caseGetElementPtr_struct s I v indices mems hs hf] at h
          cases hp : gepPos indices 0 0 with
          | error e => rw [hp] at h; cases h
          | ok pos =>
              rw [hp] at h
              cases hb : mems[pos]? with
              | none => simp only [hb] at h; cases h
              | some b =>
                  simp only [hb] at h
                  cases h
                  refine Micros.step _ _ _ (Micro.identify s I) (micros_single ?_)
                  refine micro_addBase _ _ _ (recorded_of_valMap (find_Value2Int_self s I)) ?_
                  refine recorded_of_valMem v mems ?_ (List.getElem?_mem hb)
                  rw [Value2Int_valMem]
                  exact hf

theorem micros_processInstruction {s t : PADriver} {inst : Instruction}
    (h : s.processInstruction inst = .ok t) : Micros s t := by
  cases inst with
  | Call I f =>
      cases f with
      | none => simp only [processInstruction] at h; cases h; exact Micros.done _
      | some name =>
          simp only [processInstruction] at h
          split at h
          · exact micros_caseMalloc h
          · cases h; exact Micros.done _
  | Alloca I => simp only [processInstruction] at h; cases h; exact micros_caseAlloca s I
  | GetElementPtr I v indices =>
      simp only [processInstruction] at h; exact micros_caseGetElementPtr h
  | BitCast I v =>
      simp only [processInstruction] at h
      cases h
      rw [caseBitCast_eq]
      split
      · exact micros_fallback s I v
      · exact Micros.done _
  | Store I v ptr =>
      simp only [processInstruction] at h
      cases h
      rw [caseStore_eq]
      split
      · exact micros_pair s _ ptr v
          (micro_addStore _ _ _ (recorded_pair s ptr v).1 (recorded_pair s ptr v).2)
      · exact Micros.done _
  | Load I ptr =>
      simp only [processInstruction] at h
      cases h
      rw [caseLoad_eq]
      exact micros_pair s _ I ptr
        (micro_addLoad _ _ _ (recorded_pair s I ptr).1 (recorded_pair s I ptr).2)
  | Other I => simp only [processInstruction] at h; cases h; exact Micros.done _

theorem micros_processBlock {s t : PADriver} {BB : BasicBlock}
    (h : s.processBlock BB = .ok t) : Micros s t := by
  induction BB generalizing s with
  | nil => simp only [processBlock] at h; cases h; exact Micros.done _
  | cons inst rest ih =>
      simp only [processBlock] at h
      cases h1 : s.processInstruction inst with
      | error e => rw [h1] at h; cases h
      | ok s1 =>
          rw [h1] at h
          exact micros_trans (micros_processInstruction h1) (ih h)

/-! ## What a run submits, and when it stops -/

theorem micro_calls {s t : PADriver} (h : Micro s t) :
    ∃ more, t.pointerAnalysis = s.pointerAnalysis ++ more ∧
      ∀ c ∈ more, c.isConstraint = true := by
  cases h
  case identify v => exact ⟨[], by rw [Value2Int_pointerAnalysis, List.append_nil], by simp⟩
  case mint I k hf => exact ⟨[], by simp, by simp⟩
  case submit c hc hargs h1 h2 h3 h4 =>
    refine ⟨[c], h1, ?_⟩
    intro x hx
    rw [List.mem_singleton] at hx
    rw [hx]
    exact hc

theorem micros_calls {s t : PADriver} (h : Micros s t) :
    ∃ more, t.pointerAnalysis = s.pointerAnalysis ++ more ∧
      ∀ c ∈ more, c.isConstraint = true := by
  induction h with
  | done s => exact ⟨[], by simp, by simp⟩
  | step s t u hm _ ih =>
      obtain ⟨m1, e1, c1⟩ := micro_calls hm
      obtain ⟨m2, e2, c2⟩ := ih
      refine ⟨m1 ++ m2, by rw [e2, e1, List.append_assoc], ?_⟩
      intro c hc
      rcases List.mem_append.mp hc with hc | hc
      · exact c1 c hc
      · exact c2 c hc

/-- Processing an instruction stops only in the field-sensitive branch of the
`GetElementPtr` arm (failed cast of the index, or index past the end of the cached
sequence) or in the malloc arm on an empty cached sequence. -/
theorem processInstruction_error {s : PADriver} {inst : Instruction} {e : Fault}
    (h : s.processInstruction inst = .error e) :
    (∃ I v indices mems, inst = .GetElementPtr I v indices ∧
      v.type.getElementType.isStructTy = true ∧ AssocMap.find s.valMem v = some mems ∧
      (gepPos indices 0 0 = .error e ∨
        ∃ pos, gepPos indices 0 0 = .ok pos ∧ mems.length ≤ pos)) ∨
    (∃ I, inst = .Call I (some "malloc") ∧ AssocMap.find s.valMem I = some []) := by
  cases inst with
  | Call I f =>
      cases f with
      | none => simp only [processInstruction] at h; cases h
      | some name =>
          simp only [processInstruction] at h
          split at h
          · next hname =>
              subst hname
              right
              cases hf : AssocMap.find s.valMem I with
              | none => rw [caseMalloc_first s _ I hf rfl] at h; cases h
              | some mems =>
                  rw [caseMalloc_cached s I mems hf] at h
                  cases mems with
                  | nil => exact ⟨I, rfl, hf⟩
                  | cons b rest => simp at h
          · cases h
  | Alloca I => simp only [processInstruction] at h; cases h
  | GetElementPtr I v indices =>
      simp only [processInstruction] at h
      left
      cases hs : v.type.getElementType.isStructTy with
      | false => rw [caseGetElementPtr_fallback s I v indices (Or.inl hs)] at h; cases h
      | true =>
          cases hf : AssocMap.find s.valMem v with
          | none => rw [caseGetElementPtr_fallback s I v indices (Or.inr hf)] at h; cases h
          | some mems =>
              rw [caseGetElementPtr_struct s I v indices mems hs hf] at h
              refine ⟨I, v, indices, mems, rfl, hs, hf, ?_⟩
              cases hp : gepPos indices 0 0 with
              | error e2 =>
                  rw [hp] at h
                  simp only [Except.error.injEq] at h
                  left
                  rw [h]
              | ok pos =>
                  rw [hp] at h
                  right
                  refine ⟨pos, rfl, ?_⟩
                  cases hb : mems[pos]? with
                  | none => exact List.getElem?_eq_none_iff.mp hb
                  | some b => simp only [hb] at h; cases h
  | BitCast I v => simp only [processInstruction] at h; cases h
  | Store I v ptr => simp only [processInstruction] at h; cases h
  | Load I ptr => simp only [processInstruction] at h; cases h
  | Other I => simp only [processInstruction] at h; cases h

/-! ## Every submitted id is recorded -/

theorem grows_micro {s t : PADriver} (h : Micro s t) : Grows s t := by
  cases h
  case identify v => exact grows_Value2Int s v
  case mint I k hf =>
    exact grows_mint_cache s I _ _ hf (by omega)
  case submit c hc hargs h1 h2 h3 h4 =>
    exact ⟨le_of_eq h2.symm, fun v n h => by rw [h3]; exact h,
      fun v m h => by rw [h4]; exact h, ⟨[c], h1⟩⟩

theorem WF_micro {s t : PADriver} (hw : WF s) (h : Micro s t) : WF t := by
  cases h
  case identify v => exact WF_Value2Int hw v
  case mint I k hf =>
    exact WF_mint_cache hw I _ _ (by omega) (fresh_ids s.currInd k).2 (fresh_ids s.currInd k).1
  case submit c hc hargs h1 h2 h3 h4 =>
    refine WF_calls hw h2 h3 h4 ?_
    intro d hd
    rw [h1, List.mem_append, List.mem_singleton] at hd
    rcases hd with hd | hd
    · exact Or.inl hd
    · right
      subst hd
      intro x hx
      rcases hargs x hx with ⟨v, hv⟩ | ⟨v, mems, hv, hm⟩
      · exact hw.valMap_range v x hv
      · exact hw.valMem_range v mems hv x hm

/-- The property that every id passed to the solver so far is recorded. -/
theorem submitted_micro {s t : PADriver}
    (hs : ∀ c ∈ s.pointerAnalysis, ∀ x ∈ c.args, Recorded s x) (h : Micro s t) :
    ∀ c ∈ t.pointerAnalysis, ∀ x ∈ c.args, Recorded t x := by
  have g := grows_micro h
  obtain ⟨more, e⟩ := g.calls
  cases h
  case identify v =>
    intro c hc x hx
    rw [Value2Int_pointerAnalysis] at hc
    exact (hs c hc x hx).mono g
  case mint I k hf =>
    intro c hc x hx
    exact (hs c hc x hx).mono g
  case submit d hd hargs h1 h2 h3 h4 =>
    intro c hc x hx
    rw [h1, List.mem_append, List.mem_singleton] at hc
    rcases hc with hc | hc
    · exact (hs c hc x hx).mono g
    · subst hc
      exact (hargs x hx).mono g

theorem submitted_micros {s t : PADriver}
    (hs : ∀ c ∈ s.pointerAnalysis, ∀ x ∈ c.args, Recorded s x) (h : Micros s t) :
    ∀ c ∈ t.pointerAnalysis, ∀ x ∈ c.args, Recorded t x := by
  induction h with
  | done s => exact hs
  | step s t u hm _ ih => exact ih (submitted_micro hs hm)

end PADriver

theorem AssocMap.find_eq_none_iff {β : Type} (m : List (Value × β)) (v : Value) :
    AssocMap.find m v = none ↔ v ∉ m.map Prod.fst := by
  induction m with
  | nil => simp [AssocMap.find]
  | cons p rest ih =>
      obtain ⟨k, b⟩ := p
      by_cases h : k = v
      · simp [AssocMap.find, h]
      · have h2 : ¬ v = k := fun e => h e.symm
        simp [AssocMap.find, h, h2, ih]

theorem AssocMap.assign_of_find_none {β : Type} (m : List (Value × β)) (v : Value) (b : β)
    (h : AssocMap.find m v = none) : AssocMap.assign m v b = m ++ [(v, b)] := by
  induction m with
  | nil => rfl
  | cons p rest ih =>
      obtain ⟨k, c⟩ := p
      by_cases hk : k = v
      · simp [AssocMap.find, hk] at h
      · simp only [AssocMap.find, hk, if_false] at h
        simp [AssocMap.assign, hk, ih h]

namespace PADriver

/-! ## The dense id space -/

theorem Dense_init : Dense init := by
  refine ⟨?_, ?_, ?_, ?_, ?_⟩ <;> simp [init, allIds]

theorem Dense_micro {s t : PADriver} (hd : Dense s) (h : Micro s t) : Dense t := by
  cases h
  case identify v =>
    cases hf : AssocMap.find s.valMap v with
    | some n => rw [Value2Int_of_find hf]; exact hd
    | none =>
        rw [Value2Int_of_not_find hf]
        have hkey := (AssocMap.find_eq_none_iff s.valMap v).mp hf
        have hfresh : s.currInd + 1 ∉ s.allIds := by
          intro hm
          have := hd.ids_range _ hm
          omega
        have hids : allIds
            { s with currInd := s.currInd + 1,
                     valMap := AssocMap.assign s.valMap v (s.currInd + 1) } =
            s.valMap.map Prod.snd ++ (s.currInd + 1) :: (s.valMem.map Prod.snd).flatten := by
          simp [allIds, AssocMap.assign_of_find_none _ _ _ hf]
        refine ⟨?_, hd.valMem_keys, ?_, ?_, ?_⟩
        · show ((AssocMap.assign s.valMap v (s.currInd + 1)).map Prod.fst).Nodup
          rw [AssocMap.assign_of_find_none _ _ _ hf, List.map_append]
          exact hd.valMap_keys.append (by simp) (by simpa using hkey)
        · rw [hids, List.nodup_middle, List.nodup_cons]
          exact ⟨hfresh, hd.ids_nodup⟩
        · intro x hx
          rw [hids] at hx
          show 1 ≤ x ∧ x ≤ s.currInd + 1
          have h0 : 0 ≤ s.currInd := by
            rw [← hd.ids_length]; exact Int.natCast_nonneg _
          rcases List.mem_append.mp hx with hx | hx
          · have := hd.ids_range x (List.mem_append_left _ hx); omega
          · rcases List.mem_cons.mp hx with hx | hx
            · omega
            · have := hd.ids_range x (List.mem_append_right _ hx); omega
        · rw [hids]
          show _ = s.currInd + 1
          rw [← hd.ids_length]
          simp [allIds]
          omega
  case mint I k hf =>
    have hkey := (AssocMap.find_eq_none_iff s.valMem I).mp hf
    have hfr := fresh_ids s.currInd k
    have hids : allIds
        { s with currInd := s.currInd + (k : Int),
                 valMem := AssocMap.assign s.valMem I (idsAfter s.currInd k) } =
        s.allIds ++ idsAfter s.currInd k := by
      simp [allIds, AssocMap.assign_of_find_none _ _ _ hf]
    refine ⟨hd.valMap_keys, ?_, ?_, ?_, ?_⟩
    · show ((AssocMap.assign s.valMem I (idsAfter s.currInd k)).map Prod.fst).Nodup
      rw [AssocMap.assign_of_find_none _ _ _ hf, List.map_append]
      exact hd.valMem_keys.append (by simp) (by simpa using hkey)
    · rw [hids]
      refine hd.ids_nodup.append hfr.1 ?_
      intro x hx1 hx2
      have := hd.ids_range x hx1
      have := hfr.2 x hx2
      omega
    · intro x hx
      rw [hids] at hx
      show 1 ≤ x ∧ x ≤ s.currInd + (k : Int)
      have h0 : 0 ≤ s.currInd := by
        rw [← hd.ids_length]; exact Int.natCast_nonneg _
      rcases List.mem_append.mp hx with hx | hx
      · have := hd.ids_range x hx; omega
      · have := hfr.2 x hx; omega
    · rw [hids]
      show _ = s.currInd + (k : Int)
      rw [← hd.ids_length]
      simp [idsAfter]
  case submit c hc hargs h1 h2 h3 h4 =>
    have hids : t.allIds = s.allIds := by
      simp only [allIds, h3, h4]
    exact ⟨by rw [h3]; exact hd.valMap_keys, by rw [h4]; exact hd.valMem_keys,
      by rw [hids]; exact hd.ids_nodup, by rw [hids, h2]; exact hd.ids_range,
      by rw [hids, h2]; exact hd.ids_length⟩

theorem Dense_micros {s t : PADriver} (hd : Dense s) (h : Micros s t) : Dense t := by
  induction h with
  | done s => exact hd
  | step s t u hm _ ih => exact ih (Dense_micro hd hm)

/-- A duplicate-free list of `c` integers between 1 and `c` holds each of them. -/
theorem mem_of_nodup_of_length (l : List Int) (c : Int) (hn : l.Nodup)
    (hr : ∀ x ∈ l, 1 ≤ x ∧ x ≤ c) (hl : (l.length : Int) = c) (x : Int)
    (h1 : 1 ≤ x) (h2 : x ≤ c) : x ∈ l := by
  have hsub : l.toFinset ⊆ Finset.Icc 1 c := by
    intro y hy
    rw [List.mem_toFinset] at hy
    rw [Finset.mem_Icc]
    exact hr y hy
  have hcard : (Finset.Icc 1 c).card ≤ l.toFinset.card := by
    rw [List.toFinset_card_of_nodup hn, Int.card_Icc]
    omega
  have heq := Finset.eq_of_subset_of_card_le hsub hcard
  have : x ∈ l.toFinset := by
    rw [heq, Finset.mem_Icc]
    exact ⟨h1, h2⟩
  exact List.mem_toFinset.mp this

end PADriver

theorem AssocMap.mem_of_find {β : Type} (m : List (Value × β)) (v : Value) (b : β)
    (h : AssocMap.find m v = some b) : (v, b) ∈ m := by
  induction m with
  | nil => simp [AssocMap.find] at h
  | cons p rest ih =>
      obtain ⟨k, c⟩ := p
      by_cases hk : k = v
      · simp only [AssocMap.find, hk, if_true, Option.some.injEq] at h
        simp [hk, h]
      · simp only [AssocMap.find, hk, if_false] at h
        exact List.mem_cons_of_mem _ (ih h)

theorem AssocMap.find_of_mem {β : Type} (m : List (Value × β)) (v : Value) (b : β)
    (hn : (m.map Prod.fst).Nodup) (h : (v, b) ∈ m) : AssocMap.find m v = some b := by
  induction m with
  | nil => simp at h
  | cons p rest ih =>
      obtain ⟨k, c⟩ := p
      simp only [List.map_cons, List.nodup_cons] at hn
      rcases List.mem_cons.mp h with h | h
      · cases h
        simp [AssocMap.find]
      · have hk : k ≠ v := by
          intro e
          subst e
          exact hn.1 (List.mem_map_of_mem Prod.fst h)
        simp only [AssocMap.find, hk, if_false]
        exact ih hn.2 h

namespace PADriver

/-- With one entry per key, the ids held by the tables are the recorded ids. -/
theorem mem_allIds_iff {s : PADriver} (hd : Dense s) (x : Int) :
    x ∈ s.allIds ↔ Recorded s x := by
  constructor
  · intro h
    rcases List.mem_append.mp h with h | h
    · obtain ⟨⟨v, y⟩, hm, rfl⟩ := List.mem_map.mp h
      exact Or.inl ⟨v, AssocMap.find_of_mem _ _ _ hd.valMap_keys hm⟩
    · obtain ⟨l, hl, hx⟩ := List.mem_flatten.mp h
      obtain ⟨⟨v, mems⟩, hm, rfl⟩ := List.mem_map.mp hl
      exact Or.inr ⟨v, mems, AssocMap.find_of_mem _ _ _ hd.valMem_keys hm, hx⟩
  · rintro (⟨v, hv⟩ | ⟨v, mems, hv, hx⟩)
    · exact List.mem_append_left _
        (List.mem_map.mpr ⟨(v, x), AssocMap.mem_of_find _ _ _ hv, rfl⟩)
    · exact List.mem_append_right _ (List.mem_flatten.mpr
        ⟨mems, List.mem_map.mpr ⟨(v, mems), AssocMap.mem_of_find _ _ _ hv, rfl⟩, hx⟩)

/-! ## The memory-object table changes only on the first visit of an allocation site -/

theorem caseGetElementPtr_valMem {s t : PADriver} {I v : Value} {indices : List IndexOperand}
    (h : s.caseGetElementPtr I v indices = .ok t) : t.valMem = s.valMem := by
  have hfb : (((s.Value2Int I).2.Value2Int v).2.addBase (s.Value2Int I).1
      ((s.Value2Int I).2.Value2Int v).1).valMem = s.valMem := by
    show ((s.Value2Int I).2.Value2Int v).2.valMem = _
    rw [Value2Int_valMem, Value2Int_valMem]
  cases hs : v.type.getElementType.isStructTy with
  | false =>
      rw [caseGetElementPtr_fallback s I v indices (Or.inl hs)] at h
      cases h
      exact hfb
  | true =>
      cases hf : AssocMap.find s.valMem v with
      | none =>
          rw [caseGetElementPtr_fallback s I v indices (Or.inr hf)] at h
          cases h
          exact hfb
      | some mems =>
          rw [caseGetElementPtr_struct s I v indices mems hs hf] at h
          cases hp : gepPos indices 0 0 with
          | error e => rw [hp] at h; cases h
          | ok pos =>
              rw [hp] at h
              cases hb : mems[pos]? with
              | none => simp only [hb] at h; cases h
              | some b =>
                  simp only [hb] at h
                  cases h
                  exact Value2Int_valMem s I

theorem caseBitCast_valMem (s : PADriver) (I v : Value) :
    (s.caseBitCast I v).valMem = s.valMem := by
  rw [caseBitCast_eq]
  split
  · show ((s.Value2Int I).2.Value2Int v).2.valMem = _
    rw [Value2Int_valMem, Value2Int_valMem]
  · rfl

theorem caseStore_valMem (s : PADriver) (v ptr : Value) :
    (s.caseStore v ptr).valMem = s.valMem := by
  rw [caseStore_eq]
  split
  · show ((s.Value2Int ptr).2.Value2Int v).2.valMem = _
    rw [Value2Int_valMem, Value2Int_valMem]
  · rfl

theorem caseLoad_valMem (s : PADriver) (I ptr : Value) :
    (s.caseLoad I ptr).valMem = s.valMem := by
  rw [caseLoad_eq]
  show ((s.Value2Int I).2.Value2Int ptr).2.valMem = _
  rw [Value2Int_valMem, Value2Int_valMem]

/-- Either the instruction is the first visit of an allocation site and adds the entry of
that site, or it leaves the memory-object table as it is. -/
theorem valMem_processInstruction {s t : PADriver} {inst : Instruction}
    (h : s.processInstruction inst = .ok t) :
    (∃ I mems, (inst = .Alloca I ∨ (inst = .Call I (some "malloc") ∧ mems.length = 1)) ∧
      AssocMap.find s.valMem I = none ∧ t.valMem = AssocMap.assign s.valMem I mems) ∨
    ((∀ I, inst = .Alloca I ∨ inst = .Call I (some "malloc") →
        AssocMap.find s.valMem I ≠ none) ∧ t.valMem = s.valMem) := by
  cases inst with
  | Call I f =>
      cases f with
      | none =>
          simp only [processInstruction] at h
          cases h
          exact Or.inr ⟨by simp, rfl⟩
      | some name =>
          simp only [processInstruction] at h
          split at h
          · next hname =>
              subst hname
              cases hf : AssocMap.find s.valMem I with
              | none =>
                  rw [caseMalloc_first s _ I hf rfl] at h
                  cases h
                  refine Or.inl ⟨I, [s.currInd + 1], Or.inr ⟨rfl, rfl⟩, hf, ?_⟩
                  show (Value2Int _ I).2.valMem = _
                  rw [Value2Int_valMem]
              | some mems =>
                  rw [caseMalloc_cached s I mems hf] at h
                  cases hb : mems[0]? with
                  | none => rw [hb] at h; cases h
                  | some b =>
                      rw [hb] at h
                      cases h
                      refine Or.inr ⟨?_, Value2Int_valMem s I⟩
                      intro J hJ
                      rcases hJ with hJ | hJ
                      · cases hJ
                      · cases hJ
                        rw [hf]
                        simp
          · next hname =>
              cases h
              refine Or.inr ⟨?_, rfl⟩
              intro J hJ
              rcases hJ with hJ | hJ
              · cases hJ
              · cases hJ
                exact absurd rfl hname
  | Alloca I =>
      simp only [processInstruction] at h
      cases h
      cases hf : AssocMap.find s.valMem I with
      | none =>
          refine Or.inl ⟨I, idsAfter s.currInd (allocaNumElems I.type.getElementType),
            Or.inl rfl, hf, ?_⟩
          rw [caseAlloca_first s I hf, allocaEmit_valMem]
          rfl
      | some mems =>
          refine Or.inr ⟨?_, ?_⟩
          · intro J hJ
            rcases hJ with hJ | hJ
            · cases hJ
              rw [hf]
              simp
            · cases hJ
          · rw [caseAlloca_cached s I mems hf, allocaEmit_valMem]
  | GetElementPtr I v indices =>
      simp only [processInstruction] at h
      exact Or.inr ⟨by simp, caseGetElementPtr_valMem h⟩
  | BitCast I v =>
      simp only [processInstruction] at h
      cases h
      exact Or.inr ⟨by simp, caseBitCast_valMem s I v⟩
  | Store I v ptr =>
      simp only [processInstruction] at h
      cases h
      exact Or.inr ⟨by simp, caseStore_valMem s v ptr⟩
  | Load I ptr =>
      simp only [processInstruction] at h
      cases h
      exact Or.inr ⟨by simp, caseLoad_valMem s I ptr⟩
  | Other I =>
      simp only [processInstruction] at h
      cases h
      exact Or.inr ⟨by simp, rfl⟩

/-- Every cached sequence has length 1 unless its site is one of the `alloca`
instructions processed so far. -/
theorem mallocLen_processBlock (insts seen : List Instruction) (s t : PADriver)
    (hs : ∀ I mems, AssocMap.find s.valMem I = some mems →
      mems.length = 1 ∨ Instruction.Alloca I ∈ seen)
    (h : s.processBlock insts = .ok t) :
    ∀ I mems, AssocMap.find t.valMem I = some mems →
      mems.length = 1 ∨ Instruction.Alloca I ∈ seen ++ insts := by
  induction insts generalizing s seen with
  | nil =>
      simp only [processBlock] at h
      cases h
      simpa using hs
  | cons inst rest ih =>
      simp only [processBlock] at h
      cases h1 : s.processInstruction inst with
      | error e => rw [h1] at h; cases h
      | ok s1 =>
          rw [h1] at h
          have hstep : ∀ I mems, AssocMap.find s1.valMem I = some mems →
              mems.length = 1 ∨ Instruction.Alloca I ∈ seen ++ [inst] := by
            intro J ms hJ
            rcases valMem_processInstruction h1 with ⟨I, mems, hkind, _, hv⟩ | ⟨_, hv⟩
            · rw [hv, AssocMap.find_assign] at hJ
              split at hJ
              · next hIJ =>
                  subst hIJ
                  cases hJ
                  rcases hkind with hk | ⟨_, hk⟩
                  · right
                    rw [hk]
                    simp
                  · exact Or.inl hk
              · rcases hs J ms hJ with h2 | h2
                · exact Or.inl h2
                · exact Or.inr (List.mem_append_left _ h2)
            · rw [hv] at hJ
              rcases hs J ms hJ with h2 | h2
              · exact Or.inl h2
              · exact Or.inr (List.mem_append_left _ h2)
          have := ih (seen ++ [inst]) s1 hstep h
          simpa [List.append_assoc] using this

/-! ## Which values get an id -/

theorem find_Value2Int_cases (s : PADriver) (w v : Value) (n : Int)
    (h : AssocMap.find (s.Value2Int w).2.valMap v = some n) :
    AssocMap.find s.valMap v = some n ∨ v = w := by
  cases hf : AssocMap.find s.valMap w with
  | some m => rw [Value2Int_of_find hf] at h; exact Or.inl h
  | none =>
      rw [Value2Int_of_not_find hf] at h
      simp only [AssocMap.find_assign] at h
      split at h
      · next hwv => exact Or.inr hwv.symm
      · exact Or.inl h

theorem find_pair_cases (s : PADriver) (x y v : Value) (n : Int)
    (h : AssocMap.find ((s.Value2Int x).2.Value2Int y).2.valMap v = some n) :
    AssocMap.find s.valMap v = some n ∨ v = x ∨ v = y := by
  rcases find_Value2Int_cases _ y v n h with h1 | h1
  · rcases find_Value2Int_cases s x v n h1 with h2 | h2
    · exact Or.inl h2
    · exact Or.inr (Or.inl h2)
  · exact Or.inr (Or.inr h1)

theorem find_allocaEmit_cases (mems : List Int) (I : Value) (s : PADriver) (v : Value)
    (n : Int) (h : AssocMap.find (allocaEmit mems I s).valMap v = some n) :
    AssocMap.find s.valMap v = some n ∨ v = I := by
  rw [allocaEmit_eq] at h
  split at h
  · exact Or.inl h
  · exact find_Value2Int_cases s I v n h

/-- A value that has an id after a well-typed instruction had it before, or is of pointer
type, or is the result of this load, or the result of this call of malloc. -/
theorem typed_processInstruction {s t : PADriver} {inst : Instruction}
    (hwt : inst.wellTyped = true) (h : s.processInstruction inst = .ok t)
    (v : Value) (n : Int) (hv : AssocMap.find t.valMap v = some n) :
    AssocMap.find s.valMap v = some n ∨ v.type.isPointerTy = true ∨
      (∃ ptr, inst = .Load v ptr) ∨ inst = .Call v (some "malloc") := by
  cases inst with
  | Call I f =>
      cases f with
      | none => simp only [processInstruction] at h; cases h; exact Or.inl hv
      | some name =>
          simp only [processInstruction] at h
          split at h
          · next hname =>
              subst hname
              cases hf : AssocMap.find s.valMem I with
              | none =>
                  rw [caseMalloc_first s _ I hf rfl] at h
                  cases h
                  rcases find_Value2Int_cases _ I v n hv with h1 | h1
                  · exact Or.inl h1
                  · subst h1
                    exact Or.inr (Or.inr (Or.inr rfl))
              | some mems =>
                  rw [caseMalloc_cached s I mems hf] at h
                  cases hb : mems[0]? with
                  | none => rw [hb] at h; cases h
                  | some b =>
                      rw [hb] at h
                      cases h
                      rcases find_Value2Int_cases s I v n hv with h1 | h1
                      · exact Or.inl h1
                      · subst h1
                        exact Or.inr (Or.inr (Or.inr rfl))
          · cases h; exact Or.inl hv
  | Alloca I =>
      simp only [processInstruction] at h
      cases h
      simp only [Instruction.wellTyped] at hwt
      have key : ∀ (mems : List Int) (u : PADriver),
          AssocMap.find (allocaEmit mems I u).valMap v = some n → u.valMap = s.valMap →
          AssocMap.find s.valMap v = some n ∨ v.type.isPointerTy = true ∨
            (∃ ptr, Instruction.Alloca I = .Load v ptr) ∨
            Instruction.Alloca I = .Call v (some "malloc") := by
        intro mems u hfind hu
        rcases find_allocaEmit_cases mems I u v n hfind with h1 | h1
        · rw [hu] at h1; exact Or.inl h1
        · subst h1; exact Or.inr (Or.inl hwt)
      cases hf : AssocMap.find s.valMem I with
      | none =>
          rw [caseAlloca_first s I hf] at hv
          exact key _ _ hv rfl
      | some mems =>
          rw [caseAlloca_cached s I mems hf] at hv
          exact key _ _ hv rfl
  | GetElementPtr I w indices =>
      simp only [processInstruction] at h
      simp only [Instruction.wellTyped, Bool.and_eq_true] at hwt
      have hfb : AssocMap.find ((s.Value2Int I).2.Value2Int w).2.valMap v = some n →
          AssocMap.find s.valMap v = some n ∨ v.type.isPointerTy = true ∨
            (∃ ptr, Instruction.GetElementPtr I w indices = .Load v ptr) ∨
            Instruction.GetElementPtr I w indices = .Call v (some "malloc") := by
        intro hfind
        rcases find_pair_cases s I w v n hfind with h1 | h1 | h1
        · exact Or.inl h1
        · subst h1; exact Or.inr (Or.inl hwt.1)
        · subst h1; exact Or.inr (Or.inl hwt.2)
      cases hs : w.type.getElementType.isStructTy with
      | false =>
          rw [caseGetElementPtr_fallback s I w indices (Or.inl hs)] at h
          cases h
          exact hfb hv
      | true =>
          cases hf : AssocMap.find s.valMem w with
          | none =>
              rw [caseGetElementPtr_fallback s I w indices (Or.inr hf)] at h
              cases h
              exact hfb hv
          | some mems =>
              rw [caseGetElementPtr_struct s I w indices mems hs hf] at h
              cases hp : gepPos indices 0 0 with
              | error e => rw [hp] at h; cases h
              | ok pos =>
                  rw [hp] at h
                  cases hb : mems[pos]? with
                  | none => simp only [hb] at h; cases h
                  | some b =>
                      simp only [hb] at h
                      cases h
                      rcases find_Value2Int_cases s I v n hv with h1 | h1
                      · exact Or.inl h1
                      · subst h1; exact Or.inr (Or.inl hwt.1)
  | BitCast I w =>
      simp only [processInstruction] at h
      cases h
      rw [caseBitCast_eq] at hv
      split at hv
      · next hp =>
          simp only [Instruction.wellTyped, hp, Bool.not_true, Bool.false_or] at hwt
          rcases find_pair_cases s I w v n hv with h1 | h1 | h1
          · exact Or.inl h1
          · subst h1; exact Or.inr (Or.inl hwt)
          · subst h1; exact Or.inr (Or.inl hp)
      · exact Or.inl hv
  | Store I w ptr =>
      simp only [processInstruction] at h
      cases h
      simp only [Instruction.wellTyped] at hwt
      rw [caseStore_eq] at hv
      split at hv
      · next hp =>
          rcases find_pair_cases s ptr w v n hv with h1 | h1 | h1
          · exact Or.inl h1
          · subst h1; exact Or.inr (Or.inl hwt)
          · subst h1; exact Or.inr (Or.inl hp)
      · exact Or.inl hv
  | Load I ptr =>
      simp only [processInstruction] at h
      cases h
      simp only [Instruction.wellTyped] at hwt
      rw [caseLoad_eq] at hv
      rcases find_pair_cases s I ptr v n hv with h1 | h1 | h1
      · exact Or.inl h1
      · subst h1; exact Or.inr (Or.inr (Or.inl ⟨ptr, rfl⟩))
      · subst h1; exact Or.inr (Or.inl hwt)
  | Other I => simp only [processInstruction] at h; cases h; exact Or.inl hv

theorem typed_processBlock (insts seen : List Instruction) (s t : PADriver)
    (hwt : ∀ inst ∈ insts, inst.wellTyped = true)
    (hs : ∀ v n, AssocMap.find s.valMap v = some n →
      v.type.isPointerTy = true ∨ (∃ ptr, Instruction.Load v ptr ∈ seen) ∨
        Instruction.Call v (some "malloc") ∈ seen)
    (h : s.processBlock insts = .ok t) :
    ∀ v n, AssocMap.find t.valMap v = some n →
      v.type.isPointerTy = true ∨ (∃ ptr, Instruction.Load v ptr ∈ seen ++ insts) ∨
        Instruction.Call v (some "malloc") ∈ seen ++ insts := by
  induction insts generalizing s seen with
  | nil =>
      simp only [processBlock] at h
      cases h
      simpa using hs
  | cons inst rest ih =>
      simp only [processBlock] at h
      cases h1 : s.processInstruction inst with
      | error e => rw [h1] at h; cases h
      | ok s1 =>
          rw [h1] at h
          have hstep : ∀ v n, AssocMap.find s1.valMap v = some n →
              v.type.isPointerTy = true ∨ (∃ ptr, Instruction.Load v ptr ∈ seen ++ [inst]) ∨
                Instruction.Call v (some "malloc") ∈ seen ++ [inst] := by
            intro v n hv
            rcases typed_processInstruction (hwt inst (List.mem_cons_self _ _)) h1 v n hv with
              h2 | h2 | ⟨ptr, h2⟩ | h2
            · rcases hs v n h2 with h3 | ⟨ptr, h3⟩ | h3
              · exact Or.inl h3
              · exact Or.inr (Or.inl ⟨ptr, List.mem_append_left _ h3⟩)
              · exact Or.inr (Or.inr (List.mem_append_left _ h3))
            · exact Or.inl h2
            · exact Or.inr (Or.inl ⟨ptr, by rw [h2]; simp⟩)
            · exact Or.inr (Or.inr (by rw [h2]; simp))
          have := ih (seen ++ [inst]) s1 (fun i hi => hwt i (List.mem_cons_of_mem _ hi)) hstep h
          simpa [List.append_assoc] using this

end PADriver

/-! ## The order of the solver calls of a run that returns -/

/-- When a run of `runOnModule` on a module returns, the calls it made on the solver are
constraint submissions only, followed by one `solve` and then one `print`, and nothing
after; `solve` and `print` occur exactly once among them, and the pass returns `false`.
The run returns exactly when no instruction of the module stops processing. -/
theorem runOnModule_calls (s : PADriver) (M : Module) :
    (∀ r t, s.runOnModule M = .ok (r, t) →
      ∃ cs, t.pointerAnalysis = s.pointerAnalysis ++ (cs ++ [SolverCall.solve, SolverCall.print]) ∧
        (∀ c ∈ cs, c.isConstraint = true) ∧
        (cs ++ [SolverCall.solve, SolverCall.print]).count SolverCall.solve = 1 ∧
        (cs ++ [SolverCall.solve, SolverCall.print]).count SolverCall.print = 1 ∧
        r = false) ∧
    ((∃ r t, s.runOnModule M = .ok (r, t)) ↔
      ∃ s1, s.processBlock (M.flatten).flatten = .ok s1) := by
  constructor
  · intro r t h
    simp only [PADriver.runOnModule] at h
    cases hm : s.processModule M with
    | error e => rw [hm] at h; cases h
    | ok s1 =>
        rw [hm] at h
        simp only [Except.ok.injEq, Prod.mk.injEq] at h
        obtain ⟨hr, ht⟩ := h
        rw [PADriver.processModule_eq_processBlock] at hm
        obtain ⟨cs, e1, hcs⟩ := PADriver.micros_calls (PADriver.micros_processBlock hm)
        have hsolve : cs.count SolverCall.solve = 0 := by
          apply List.count_eq_zero.mpr
          intro hmem
          have := hcs _ hmem
          simp [SolverCall.isConstraint] at this
        have hprint : cs.count SolverCall.print = 0 := by
          apply List.count_eq_zero.mpr
          intro hmem
          have := hcs _ hmem
          simp [SolverCall.isConstraint] at this
        refine ⟨cs, ?_, hcs, ?_, ?_, hr.symm⟩
        · rw [← ht]
          simp only [e1, List.append_assoc, List.singleton_append]
        · rw [List.count_append, hsolve]
          decide
        · rw [List.count_append, hprint]
          decide
  · rw [← PADriver.processModule_eq_processBlock]
    constructor
    · rintro ⟨r, t, h⟩
      simp only [PADriver.runOnModule] at h
      cases hm : s.processModule M with
      | error e => rw [hm] at h; cases h
      | ok s1 => exact ⟨s1, rfl⟩
    · rintro ⟨s1, h⟩
      simp only [PADriver.runOnModule, h]
      exact ⟨_, _, rfl⟩

/-! ## The claims -/

/-- C1 (identity stability).  Once `Value2Int(v)` has returned an id, every later call
`Value2Int(v)`, after any sequence of calls of `Value2Int` and `getNewMem` and of
processed instructions, returns the same id, and that later call changes nothing. -/
theorem C1_identity_stability (s : PADriver) (v : Value) (ops : List Op) (ids : List Int)
    (t : PADriver) (h : applyOps (s.Value2Int v).2 ops = .ok (ids, t)) :
    (t.Value2Int v).1 = (s.Value2Int v).1 ∧ (t.Value2Int v).2 = t := by
  have hf := (grows_applyOps h).valMap v _ (PADriver.find_Value2Int_self s v)
  rw [PADriver.Value2Int_of_find hf]
  exact ⟨rfl, rfl⟩

theorem C1_identity_stability_witness :
    applyOps (PADriver.init.Value2Int Sample.p).2
        [.getNewMem, .Value2Int Sample.n, .process (.Alloca Sample.s3), .Value2Int Sample.p] =
      .ok ([2, 3, 1],
        { pointerAnalysis := [.addAddr 7 4, .addAddr 7 5, .addAddr 7 6],
          currInd := 7,
          valMap := [(Sample.p, 1), (Sample.n, 3), (Sample.s3, 7)],
          valMem := [(Sample.s3, [4, 5, 6])],
          PABaseCt := 0, PAAddrCt := 3, PALoadCt := 0, PAStoreCt := 0 }) ∧
    (PADriver.Value2Int
        { pointerAnalysis := [.addAddr 7 4, .addAddr 7 5, .addAddr 7 6],
          currInd := 7,
          valMap := [(Sample.p, 1), (Sample.n, 3), (Sample.s3, 7)],
          valMem := [(Sample.s3, [4, 5, 6])],
          PABaseCt := 0, PAAddrCt := 3, PALoadCt := 0, PAStoreCt := 0 } Sample.p).1 = 1 :=
  ⟨rfl, (C1_identity_stability PADriver.init Sample.p
    [.getNewMem, .Value2Int Sample.n, .process (.Alloca Sample.s3), .Value2Int Sample.p]
    [2, 3, 1] _ rfl).1⟩

/-- C2 (id uniqueness).  In every state reached from the initial state by processing a
sequence of instructions, the value table is injective, no cached sequence holds an id
twice, the cached sequences of two allocation sites share no id, and no memory-object
id is the id of a value. -/
theorem C2_id_uniqueness (insts : List Instruction) (s : PADriver)
    (h : PADriver.init.processBlock insts = .ok s) :
    (∀ v w n, AssocMap.find s.valMap v = some n → AssocMap.find s.valMap w = some n → v = w) ∧
    (∀ v mems, AssocMap.find s.valMem v = some mems → mems.Nodup) ∧
    (∀ v w mv mw, v ≠ w → AssocMap.find s.valMem v = some mv →
      AssocMap.find s.valMem w = some mw → ∀ x ∈ mv, x ∉ mw) ∧
    (∀ v n w mems, AssocMap.find s.valMap v = some n →
      AssocMap.find s.valMem w = some mems → n ∉ mems) := by
  have hw := PADriver.WF_processBlock PADriver.WF_init h
  exact ⟨hw.valMap_inj, hw.valMem_nodup, hw.valMem_disjoint, hw.valMap_valMem⟩

theorem C2_id_uniqueness_witness :
    PADriver.init.processBlock
        [.Alloca Sample.s3, .Call Sample.m (some "malloc"), .Store Sample.n Sample.p Sample.s3] =
      .ok { pointerAnalysis := [.addAddr 4 1, .addAddr 4 2, .addAddr 4 3, .addAddr 6 5,
              .addStore 4 7],
            currInd := 7,
            valMap := [(Sample.s3, 4), (Sample.m, 6), (Sample.p, 7)],
            valMem := [(Sample.s3, [1, 2, 3]), (Sample.m, [5])],
            PABaseCt := 0, PAAddrCt := 4, PALoadCt := 0, PAStoreCt := 1 } ∧
    (4 : Int) ∉ [(1 : Int), 2, 3] :=
  ⟨rfl, (C2_id_uniqueness
    [.Alloca Sample.s3, .Call Sample.m (some "malloc"), .Store Sample.n Sample.p Sample.s3]
    _ rfl).2.2.2 Sample.s3 4 Sample.s3 [1, 2, 3] rfl rfl⟩

/-- C3 (`Value2Int`).  If `v` has an id, `Value2Int(v)` returns it and changes nothing.
Otherwise it returns `currInd + 1`, sets the counter to `currInd + 1`, records that id
for `v`, and leaves every other entry of the value table, the memory-object table and
the solver untouched.  From the initial state the first id is 1. -/
theorem C3_Value2Int (s : PADriver) (v : Value) :
    (∀ n, AssocMap.find s.valMap v = some n → s.Value2Int v = (n, s)) ∧
    (AssocMap.find s.valMap v = none →
      (s.Value2Int v).1 = s.currInd + 1 ∧
      (s.Value2Int v).2.currInd = s.currInd + 1 ∧
      AssocMap.find (s.Value2Int v).2.valMap v = some (s.currInd + 1) ∧
      (∀ w, w ≠ v → AssocMap.find (s.Value2Int v).2.valMap w = AssocMap.find s.valMap w) ∧
      (s.Value2Int v).2.valMem = s.valMem ∧
      (s.Value2Int v).2.pointerAnalysis = s.pointerAnalysis) ∧
    (PADriver.init.Value2Int v).1 = 1 ∧ (PADriver.init.Value2Int v).2.currInd = 1 := by
  refine ⟨fun n h => PADriver.Value2Int_of_find h, ?_, rfl, rfl⟩
  intro h
  rw [PADriver.Value2Int_of_not_find h]
  refine ⟨rfl, rfl, AssocMap.find_assign_self _ _ _, ?_, rfl, rfl⟩
  intro w hw
  exact AssocMap.find_assign_of_ne _ _ _ _ (fun e => hw e.symm)

theorem C3_Value2Int_witness :
    (PADriver.init.Value2Int Sample.p).1 = 0 + 1 ∧
    PADriver.Value2Int (PADriver.init.Value2Int Sample.p).2 Sample.p =
      (1, (PADriver.init.Value2Int Sample.p).2) :=
  ⟨((C3_Value2Int PADriver.init Sample.p).2.1 rfl).1,
    (C3_Value2Int (PADriver.init.Value2Int Sample.p).2 Sample.p).1 1 rfl⟩

/-- C4 (`getNewMem`).  The call returns `currInd + 1`, advances the counter by exactly 1
and changes neither table nor the solver.  In a state reached from the initial state by
any operations, the returned id is greater than every id issued before: every id a
direct call returned, every id in the value table, every id in a cached sequence and
every id passed to the solver. -/
theorem C4_getNewMem (s : PADriver) :
    s.getNewMem.1 = s.currInd + 1 ∧
    s.getNewMem.2.currInd = s.currInd + 1 ∧
    s.getNewMem.2.valMap = s.valMap ∧
    s.getNewMem.2.valMem = s.valMem ∧
    s.getNewMem.2.pointerAnalysis = s.pointerAnalysis ∧
    (∀ ops ids, applyOps PADriver.init ops = .ok (ids, s) →
      (∀ i ∈ ids, i < s.getNewMem.1) ∧
      (∀ v n, AssocMap.find s.valMap v = some n → n < s.getNewMem.1) ∧
      (∀ v mems, AssocMap.find s.valMem v = some mems → ∀ x ∈ mems, x < s.getNewMem.1) ∧
      (∀ c ∈ s.pointerAnalysis, ∀ x ∈ c.args, x < s.getNewMem.1)) := by
  refine ⟨rfl, rfl, rfl, rfl, rfl, ?_⟩
  intro ops ids h
  obtain ⟨hw, hi⟩ := WF_applyOps PADriver.WF_init h
  have e : s.getNewMem.1 = s.currInd + 1 := rfl
  refine ⟨?_, ?_, ?_, ?_⟩
  · intro i hm
    have := hi i hm
    omega
  · intro v n hv
    have := hw.valMap_range v n hv
    omega
  · intro v mems hv x hx
    have := hw.valMem_range v mems hv x hx
    omega
  · intro c hc x hx
    have := hw.calls_range c hc x hx
    omega

theorem C4_getNewMem_witness :
    applyOps PADriver.init [.Value2Int Sample.p, .getNewMem, .process (.Alloca Sample.s3)] =
      .ok ([1, 2],
        { pointerAnalysis := [.addAddr 6 3, .addAddr 6 4, .addAddr 6 5],
          currInd := 6,
          valMap := [(Sample.p, 1), (Sample.s3, 6)],
          valMem := [(Sample.s3, [3, 4, 5])],
          PABaseCt := 0, PAAddrCt := 3, PALoadCt := 0, PAStoreCt := 0 }) ∧
    ∀ i ∈ [(1 : Int), 2], i < 7 :=
  ⟨rfl, ((C4_getNewMem _).2.2.2.2.2
    [.Value2Int Sample.p, .getNewMem, .process (.Alloca Sample.s3)] [1, 2] rfl).1⟩

/-- C5 (allocation idempotence).  Let an allocation site `I` be visited in any state (for
a malloc call: any state in which a sequence already cached for `I` has length 1, as
the malloc arm caches it), let any instructions be processed, and let the site be
visited again.  The second visit succeeds, the sequence cached for the site is the one
in place after the first visit, neither table nor the counter changes (no id is
minted), and the solver receives exactly one `addAddr(id(I), m)` per cached id `m`, in
the order of the cache. -/
theorem C5_allocation_idempotence (s s1 s2 : PADriver) (I : Value) (inst : Instruction)
    (between : List Instruction)
    (hsite : inst = .Alloca I ∨
      (inst = .Call I (some "malloc") ∧
        ∀ mems, AssocMap.find s.valMem I = some mems → mems.length = 1))
    (h1 : s.processInstruction inst = .ok s1)
    (h2 : s1.processBlock between = .ok s2) :
    ∃ mems s3,
      AssocMap.find s1.valMem I = some mems ∧
      s2.processInstruction inst = .ok s3 ∧
      AssocMap.find s3.valMem I = some mems ∧
      s3.valMem = s2.valMem ∧ s3.valMap = s2.valMap ∧ s3.currInd = s2.currInd ∧
      s3.pointerAnalysis =
        s2.pointerAnalysis ++ mems.map (SolverCall.addAddr (s2.Value2Int I).1) := by
  have g := PADriver.grows_processBlock h2
  rcases hsite with rfl | ⟨rfl, hlen⟩
  · simp only [PADriver.processInstruction, Except.ok.injEq] at h1
    obtain ⟨mems, hmem, hval⟩ := PADriver.caseAlloca_cache s I
    rw [h1] at hmem hval
    have hm2 := g.valMem I _ hmem
    have hval2 : mems ≠ [] → ∃ a, AssocMap.find s2.valMap I = some a := by
      intro hne
      obtain ⟨a, ha⟩ := hval hne
      exact ⟨a, g.valMap I a ha⟩
    obtain ⟨r1, r2, r3, r4⟩ := PADriver.caseAlloca_revisit s2 I _ hm2 hval2
    refine ⟨mems, s2.caseAlloca I, hmem, rfl, ?_, r1, r2, r3, r4⟩
    rw [r1]
    exact hm2
  · simp only [PADriver.processInstruction, if_true] at h1
    obtain ⟨b, a, hmem, ha⟩ := PADriver.caseMalloc_cache s s1 I hlen h1
    have hm2 := g.valMem I _ hmem
    have ha2 := g.valMap I _ ha
    refine ⟨[b], s2.addAddr a b, hmem, ?_, hm2, rfl, rfl, rfl, ?_⟩
    · simp only [PADriver.processInstruction, if_true]
      exact PADriver.caseMalloc_revisit s2 I _ a hm2 ha2
    · rw [PADriver.Value2Int_of_find ha2]
      rfl

theorem C5_allocation_idempotence_witness :
    (Instruction.Alloca Sample.s3 = .Alloca Sample.s3 ∨
      (Instruction.Alloca Sample.s3 = .Call Sample.s3 (some "malloc") ∧
        ∀ mems, AssocMap.find PADriver.init.valMem Sample.s3 = some mems → mems.length = 1)) ∧
    PADriver.init.processInstruction (.Alloca Sample.s3) = .ok Sample.afterAlloca ∧
    Sample.afterAlloca.processBlock [.Load Sample.q Sample.p] = .ok Sample.afterLoad ∧
    ∃ mems s3,
      AssocMap.find Sample.afterAlloca.valMem Sample.s3 = some mems ∧
      Sample.afterLoad.processInstruction (.Alloca Sample.s3) = .ok s3 ∧
      AssocMap.find s3.valMem Sample.s3 = some mems ∧
      s3.valMem = Sample.afterLoad.valMem ∧ s3.valMap = Sample.afterLoad.valMap ∧
      s3.currInd = Sample.afterLoad.currInd ∧
      s3.pointerAnalysis =
        Sample.afterLoad.pointerAnalysis ++
          mems.map (SolverCall.addAddr (Sample.afterLoad.Value2Int Sample.s3).1) :=
  ⟨Or.inl rfl, rfl, rfl,
    C5_allocation_idempotence PADriver.init Sample.afterAlloca Sample.afterLoad Sample.s3
      (.Alloca Sample.s3) [.Load Sample.q Sample.p] (Or.inl rfl) rfl rfl⟩

/-- C6 (stack-allocation field split).  On the first visit of an `alloca` `I`: if the
allocated type is a struct with `k` fields, the sequence cached for `I` is the `k` ids
`currInd + 1, ..., currInd + k` (freshly minted, pairwise distinct), and the solver
receives exactly the `k` calls `addAddr(id(I), m)`, one per cached id, in order; if the
allocated type is not a struct, the cached sequence is the single id `currInd + 1` and
the solver receives exactly one call `addAddr(id(I), currInd + 1)`. -/
theorem C6_alloca_field_split (s : PADriver) (I : Value)
    (hfirst : AssocMap.find s.valMem I = none) :
    (∀ k, I.type.getElementType = .struct k →
      ∃ t a, s.processInstruction (.Alloca I) = .ok t ∧
        AssocMap.find t.valMem I = some (idsAfter s.currInd k) ∧
        (idsAfter s.currInd k).length = k ∧
        (idsAfter s.currInd k).Nodup ∧
        (∀ m ∈ idsAfter s.currInd k, s.currInd < m ∧ m ≤ t.currInd) ∧
        t.pointerAnalysis =
          s.pointerAnalysis ++ (idsAfter s.currInd k).map (SolverCall.addAddr a) ∧
        (0 < k → AssocMap.find t.valMap I = some a)) ∧
    (I.type.getElementType.isStructTy = false →
      ∃ t a, s.processInstruction (.Alloca I) = .ok t ∧
        AssocMap.find t.valMem I = some [s.currInd + 1] ∧
        t.pointerAnalysis = s.pointerAnalysis ++ [SolverCall.addAddr a (s.currInd + 1)] ∧
        AssocMap.find t.valMap I = some a) := by
  constructor
  · intro k hk
    have hn : PADriver.allocaNumElems I.type.getElementType = k := by
      rw [hk]; rfl
    obtain ⟨a, h1, h2, h3, h4⟩ := PADriver.caseAlloca_first_spec s I k hfirst hn
    exact ⟨s.caseAlloca I, a, rfl, h1, by simp [idsAfter], (PADriver.fresh_ids s.currInd k).1,
      h2, h3, h4⟩
  · intro hns
    have hn : PADriver.allocaNumElems I.type.getElementType = 1 := by
      cases hty : I.type.getElementType with
      | struct k => rw [hty] at hns; cases hns
      | other => rfl
      | pointer e => rfl
    obtain ⟨a, h1, _, h3, h4⟩ := PADriver.caseAlloca_first_spec s I 1 hfirst hn
    have e1 : idsAfter s.currInd 1 = [s.currInd + 1] := by
      simp [idsAfter, List.range_succ]
    rw [e1] at h1 h3
    exact ⟨s.caseAlloca I, a, rfl, h1, h3, h4 (by omega)⟩

theorem C6_alloca_field_split_witness :
    AssocMap.find PADriver.init.valMem Sample.s3 = none ∧
    Sample.s3.type.getElementType = .struct 3 ∧
    ∃ t a, PADriver.init.processInstruction (.Alloca Sample.s3) = .ok t ∧
      AssocMap.find t.valMem Sample.s3 = some (idsAfter 0 3) ∧
      (idsAfter 0 3).length = 3 ∧
      (idsAfter 0 3).Nodup ∧
      (∀ m ∈ idsAfter 0 3, 0 < m ∧ m ≤ t.currInd) ∧
      t.pointerAnalysis = [] ++ (idsAfter 0 3).map (SolverCall.addAddr a) ∧
      (0 < 3 → AssocMap.find t.valMap Sample.s3 = some a) :=
  ⟨rfl, rfl, (C6_alloca_field_split PADriver.init Sample.s3 rfl).1 3 rfl⟩

/-- C7 (field access on a tracked struct).  For a `getelementptr` `I` whose pointer
operand `v` points to a struct and has the cached sequence `mems`, and whose index at
position 1 is the constant `i` (a 32-bit constant, as the IR requires of a struct index)
with `i < mems.length`: the solver receives exactly one call, `addBase(id(I), mems[i])`,
and the memory-object table is unchanged.  In particular, after the `alloca` of a
3-field struct `S` in a state with counter `c`, the access with field index 1 submits
`addBase(id(Q), c + 2)`, where `c + 2` is the second of the three objects `c + 1`,
`c + 2`, `c + 3` minted for `S`. -/
theorem C7_field_access :
    (∀ (s : PADriver) (I v : Value) (indices : List IndexOperand) (mems : List Int) (i : Nat),
      v.type.getElementType.isStructTy = true →
      AssocMap.find s.valMem v = some mems →
      indices[1]? = some (.ConstantInt i) →
      i < mems.length → i < 2 ^ 32 →
      ∃ t a b, s.processInstruction (.GetElementPtr I v indices) = .ok t ∧
        mems[i]? = some b ∧
        t.pointerAnalysis = s.pointerAnalysis ++ [SolverCall.addBase a b] ∧
        AssocMap.find t.valMap I = some a ∧
        t.valMem = s.valMem) ∧
    (∀ (s : PADriver) (S Q : Value) (idx0 : IndexOperand),
      S.type = .pointer (.struct 3) →
      AssocMap.find s.valMem S = none →
      ∃ t1 t2 a, s.processInstruction (.Alloca S) = .ok t1 ∧
        AssocMap.find t1.valMem S = some [s.currInd + 1, s.currInd + 2, s.currInd + 3] ∧
        t1.processInstruction (.GetElementPtr Q S [idx0, .ConstantInt 1]) = .ok t2 ∧
        t2.pointerAnalysis = t1.pointerAnalysis ++ [SolverCall.addBase a (s.currInd + 2)] ∧
        AssocMap.find t2.valMap Q = some a) := by
  have part1 : ∀ (s : PADriver) (I v : Value) (indices : List IndexOperand) (mems : List Int)
      (i : Nat), v.type.getElementType.isStructTy = true →
      AssocMap.find s.valMem v = some mems →
      indices[1]? = some (.ConstantInt i) →
      i < mems.length → i < 2 ^ 32 →
      ∃ t a b, s.processInstruction (.GetElementPtr I v indices) = .ok t ∧
        mems[i]? = some b ∧
        t.pointerAnalysis = s.pointerAnalysis ++ [SolverCall.addBase a b] ∧
        AssocMap.find t.valMap I = some a ∧
        t.valMem = s.valMem := by
    intro s I v indices mems i hstruct hcached hindex hi h32
    have hb : mems[i]? = some (mems.get ⟨i, hi⟩) := by
      simp [List.getElem?_eq_getElem hi]
    refine ⟨_, (s.Value2Int I).1, mems.get ⟨i, hi⟩,
      PADriver.caseGetElementPtr_field s I v indices mems i _ hstruct hcached hindex h32 hb,
      hb, ?_, ?_, ?_⟩
    · show (s.Value2Int I).2.pointerAnalysis ++ _ = _
      rw [PADriver.Value2Int_pointerAnalysis]
    · exact PADriver.find_Value2Int_self s I
    · exact PADriver.Value2Int_valMem s I
  refine ⟨part1, ?_⟩
  intro s S Q idx0 hty hfirst
  have hn : PADriver.allocaNumElems S.type.getElementType = 3 := by
    rw [hty]; rfl
  obtain ⟨_, h1, _, _, _⟩ := PADriver.caseAlloca_first_spec s S 3 hfirst hn
  have e3 : idsAfter s.currInd 3 = [s.currInd + 1, s.currInd + 2, s.currInd + 3] := by
    simp only [idsAfter, List.range_succ, List.range_zero, List.nil_append, List.cons_append,
      List.map_cons, List.map_nil, Nat.cast_zero, Nat.cast_one, Nat.cast_ofNat, add_zero,
      List.cons.injEq, and_true, true_and]
    constructor <;> ring
  rw [e3] at h1
  have hs : S.type.getElementType.isStructTy = true := by
    rw [hty]; rfl
  obtain ⟨t2, a, b, k1, k2, k3, k4, _⟩ :=
    part1 (s.caseAlloca S) Q S [idx0, .ConstantInt 1] _ 1 hs h1 (by simp) (by simp) (by norm_num)
  have hb : b = s.currInd + 2 := by
    simp at k2
    exact k2.symm
  subst hb
  exact ⟨s.caseAlloca S, t2, a, rfl, h1, k1, k3, k4⟩

theorem C7_field_access_witness :
    Sample.s3.type.getElementType.isStructTy = true ∧
    AssocMap.find Sample.afterAlloca.valMem Sample.s3 = some [1, 2, 3] ∧
    [IndexOperand.ConstantInt 0, IndexOperand.ConstantInt 1][1]? = some (.ConstantInt 1) ∧
    1 < [(1 : Int), 2, 3].length ∧ 1 < 2 ^ 32 ∧
    (∃ t a b,
      Sample.afterAlloca.processInstruction
          (.GetElementPtr Sample.q Sample.s3 [.ConstantInt 0, .ConstantInt 1]) = .ok t ∧
        [(1 : Int), 2, 3][1]? = some b ∧
        t.pointerAnalysis = Sample.afterAlloca.pointerAnalysis ++ [SolverCall.addBase a b] ∧
        AssocMap.find t.valMap Sample.q = some a ∧
        t.valMem = Sample.afterAlloca.valMem) :=
  ⟨rfl, rfl, rfl, by decide, by norm_num,
    C7_field_access.1 Sample.afterAlloca Sample.q Sample.s3 [.ConstantInt 0, .ConstantInt 1]
      [1, 2, 3] 1 rfl rfl rfl (by decide) (by norm_num)⟩

/-- C8 (out-of-range field index): the code reads `mems[pos]` past the end of the cached
sequence instead of falling back.  After the `alloca` of a struct without fields, a
`getelementptr` on it with the single index 0 reads element 0 of an empty sequence;
after a call of a function named malloc that returns a pointer to a struct, a
`getelementptr` on the result with field index 1 reads element 1 of a sequence of
length 1. -/
theorem C8_out_of_bounds_read :
    PADriver.init.processBlock
        [.Alloca Sample.e0, .GetElementPtr Sample.qe Sample.e0 [.ConstantInt 0]] =
      .error Fault.outOfBounds ∧
    PADriver.init.processBlock
        [.Call Sample.m2 (some "malloc"),
          .GetElementPtr Sample.q Sample.m2 [.ConstantInt 0, .ConstantInt 1]] =
      .error Fault.outOfBounds :=
  ⟨rfl, rfl⟩

/-- C10 (field-insensitive fallback).  For a `getelementptr` `I` whose pointer operand
`v` does not point to a struct, or has no cached sequence, the solver receives exactly
one call, `addBase(id(I), id(v))`, and the memory-object table is unchanged. -/
theorem C10_field_insensitive_fallback (s : PADriver) (I v : Value)
    (indices : List IndexOperand)
    (h : v.type.getElementType.isStructTy = false ∨ AssocMap.find s.valMem v = none) :
    ∃ t a b, s.processInstruction (.GetElementPtr I v indices) = .ok t ∧
      t.pointerAnalysis = s.pointerAnalysis ++ [SolverCall.addBase a b] ∧
      AssocMap.find t.valMap I = some a ∧
      AssocMap.find t.valMap v = some b ∧
      t.valMem = s.valMem := by
  refine ⟨_, (s.Value2Int I).1, ((s.Value2Int I).2.Value2Int v).1,
    PADriver.caseGetElementPtr_fallback s I v indices h, ?_, ?_, ?_, ?_⟩
  · show ((s.Value2Int I).2.Value2Int v).2.pointerAnalysis ++ _ = _
    rw [PADriver.Value2Int_pointerAnalysis, PADriver.Value2Int_pointerAnalysis]
  · exact (PADriver.grows_Value2Int _ v).valMap I _ (PADriver.find_Value2Int_self s I)
  · exact PADriver.find_Value2Int_self _ v
  · show ((s.Value2Int I).2.Value2Int v).2.valMem = _
    rw [PADriver.Value2Int_valMem, PADriver.Value2Int_valMem]

theorem C10_field_insensitive_fallback_witness :
    (Sample.p.type.getElementType.isStructTy = false ∨
      AssocMap.find Sample.afterAlloca.valMem Sample.p = none) ∧
    ∃ t a b, Sample.afterAlloca.processInstruction
        (.GetElementPtr Sample.q Sample.p [.ConstantInt 0, .NonConstant Sample.n]) = .ok t ∧
      t.pointerAnalysis = Sample.afterAlloca.pointerAnalysis ++ [SolverCall.addBase a b] ∧
      AssocMap.find t.valMap Sample.q = some a ∧
      AssocMap.find t.valMap Sample.p = some b ∧
      t.valMem = Sample.afterAlloca.valMem :=
  ⟨Or.inl rfl,
    C10_field_insensitive_fallback Sample.afterAlloca Sample.q Sample.p
      [.ConstantInt 0, .NonConstant Sample.n] (Or.inl rfl)⟩

/-- C11 (scalar heap allocation).  In a state reached from the initial state by processing
instructions, the first visit of a call `I` of malloc succeeds and the solver receives
exactly one call, `addAddr(id(I), m)` with `m = currInd + 1`; `m` is greater than every
id recorded or passed to the solver before, differs from `id(I)`, and is cached as the
one-element sequence of `I`. -/
theorem C11_scalar_heap_allocation (before : List Instruction) (s : PADriver) (I : Value)
    (hreach : PADriver.init.processBlock before = .ok s)
    (hfirst : AssocMap.find s.valMem I = none) :
    ∃ t a, s.processInstruction (.Call I (some "malloc")) = .ok t ∧
      t.pointerAnalysis = s.pointerAnalysis ++ [SolverCall.addAddr a (s.currInd + 1)] ∧
      AssocMap.find t.valMap I = some a ∧
      AssocMap.find t.valMem I = some [s.currInd + 1] ∧
      a ≠ s.currInd + 1 ∧
      (∀ v n, AssocMap.find s.valMap v = some n → n < s.currInd + 1) ∧
      (∀ v mems, AssocMap.find s.valMem v = some mems → ∀ x ∈ mems, x < s.currInd + 1) ∧
      (∀ c ∈ s.pointerAnalysis, ∀ x ∈ c.args, x < s.currInd + 1) := by
  have hw := PADriver.WF_processBlock PADriver.WF_init hreach
  have hstep : s.processInstruction (.Call I (some "malloc")) = s.caseMalloc I := by
    simp [PADriver.processInstruction]
  obtain ⟨s1, hs1⟩ : ∃ s1 : PADriver, s1 =
      { s with currInd := s.currInd + 1,
               valMem := AssocMap.assign s.valMem I [s.currInd + 1] } := ⟨_, rfl⟩
  have ht := PADriver.caseMalloc_first s s1 I hfirst hs1
  have hwt := PADriver.WF_caseMalloc hw ht
  have hmem1 : AssocMap.find s1.valMem I = some [s.currInd + 1] := by
    rw [hs1]
    exact AssocMap.find_assign_self _ _ _
  have hpa1 : s1.pointerAnalysis = s.pointerAnalysis := by rw [hs1]
  have hval : AssocMap.find ((s1.Value2Int I).2.addAddr (s1.Value2Int I).1 (s.currInd + 1)).valMap
      I = some (s1.Value2Int I).1 := PADriver.find_Value2Int_self s1 I
  have hmem : AssocMap.find ((s1.Value2Int I).2.addAddr (s1.Value2Int I).1 (s.currInd + 1)).valMem
      I = some [s.currInd + 1] := by
    show AssocMap.find (s1.Value2Int I).2.valMem I = _
    rw [PADriver.Value2Int_valMem]
    exact hmem1
  refine ⟨_, (s1.Value2Int I).1, hstep.trans ht, ?_, hval, hmem, ?_, ?_, ?_, ?_⟩
  · show (s1.Value2Int I).2.pointerAnalysis ++ _ = _
    rw [PADriver.Value2Int_pointerAnalysis, hpa1]
  · intro he
    exact hwt.valMap_valMem I _ I _ hval hmem (by rw [he]; simp)
  · intro v n hv
    have := hw.valMap_range v n hv
    omega
  · intro v mems hv x hx
    have := hw.valMem_range v mems hv x hx
    omega
  · intro c hc x hx
    have := hw.calls_range c hc x hx
    omega

theorem C11_scalar_heap_allocation_witness :
    PADriver.init.processBlock [.Alloca Sample.s3] = .ok Sample.afterAlloca ∧
    AssocMap.find Sample.afterAlloca.valMem Sample.m = none ∧
    ∃ t a, Sample.afterAlloca.processInstruction (.Call Sample.m (some "malloc")) = .ok t ∧
      t.pointerAnalysis =
        Sample.afterAlloca.pointerAnalysis ++
          [SolverCall.addAddr a (Sample.afterAlloca.currInd + 1)] ∧
      AssocMap.find t.valMap Sample.m = some a ∧
      AssocMap.find t.valMem Sample.m = some [Sample.afterAlloca.currInd + 1] ∧
      a ≠ Sample.afterAlloca.currInd + 1 ∧
      (∀ v n, AssocMap.find Sample.afterAlloca.valMap v = some n →
        n < Sample.afterAlloca.currInd + 1) ∧
      (∀ v mems, AssocMap.find Sample.afterAlloca.valMem v = some mems →
        ∀ x ∈ mems, x < Sample.afterAlloca.currInd + 1) ∧
      (∀ c ∈ Sample.afterAlloca.pointerAnalysis, ∀ x ∈ c.args,
        x < Sample.afterAlloca.currInd + 1) :=
  ⟨rfl, rfl,
    C11_scalar_heap_allocation [.Alloca Sample.s3] Sample.afterAlloca Sample.m rfl rfl⟩

/-- C12 (store type gating).  For a store `*ptr = v`: if the type of `v` is not a pointer
type, processing changes nothing (no constraint, no id); if it is a pointer type, the
solver receives exactly one call, `addStore(id(ptr), id(v))`, and the memory-object
table is unchanged. -/
theorem C12_store_type_gating (s : PADriver) (I v ptr : Value) :
    (v.type.isPointerTy = false → s.processInstruction (.Store I v ptr) = .ok s) ∧
    (v.type.isPointerTy = true →
      ∃ t a b, s.processInstruction (.Store I v ptr) = .ok t ∧
        t.pointerAnalysis = s.pointerAnalysis ++ [SolverCall.addStore a b] ∧
        AssocMap.find t.valMap ptr = some a ∧
        AssocMap.find t.valMap v = some b ∧
        t.valMem = s.valMem) := by
  constructor
  · intro h
    simp [PADriver.processInstruction, PADriver.caseStore_eq, h]
  · intro h
    refine ⟨((s.Value2Int ptr).2.Value2Int v).2.addStore (s.Value2Int ptr).1
      ((s.Value2Int ptr).2.Value2Int v).1, (s.Value2Int ptr).1,
      ((s.Value2Int ptr).2.Value2Int v).1, ?_, ?_, ?_, ?_, ?_⟩
    · simp only [PADriver.processInstruction, PADriver.caseStore_eq, h, if_true]
    · show ((s.Value2Int ptr).2.Value2Int v).2.pointerAnalysis ++ _ = _
      rw [PADriver.Value2Int_pointerAnalysis, PADriver.Value2Int_pointerAnalysis]
    · exact (PADriver.grows_Value2Int _ v).valMap ptr _ (PADriver.find_Value2Int_self s ptr)
    · exact PADriver.find_Value2Int_self _ v
    · show ((s.Value2Int ptr).2.Value2Int v).2.valMem = _
      rw [PADriver.Value2Int_valMem, PADriver.Value2Int_valMem]

theorem C12_store_type_gating_witness :
    Sample.n.type.isPointerTy = false ∧
    Sample.afterAlloca.processInstruction (.Store Sample.n Sample.n Sample.s3) =
      .ok Sample.afterAlloca ∧
    Sample.p.type.isPointerTy = true ∧
    ∃ t a b, Sample.afterAlloca.processInstruction (.Store Sample.n Sample.p Sample.s3) = .ok t ∧
      t.pointerAnalysis = Sample.afterAlloca.pointerAnalysis ++ [SolverCall.addStore a b] ∧
      AssocMap.find t.valMap Sample.s3 = some a ∧
      AssocMap.find t.valMap Sample.p = some b ∧
      t.valMem = Sample.afterAlloca.valMem :=
  ⟨rfl, (C12_store_type_gating Sample.afterAlloca Sample.n Sample.n Sample.s3).1 rfl, rfl,
    (C12_store_type_gating Sample.afterAlloca Sample.n Sample.p Sample.s3).2 rfl⟩

/-- C13 (load rule).  For a load `I = *ptr`, whatever the types of `I` and `ptr`,
processing succeeds and the solver receives exactly one call, `addLoad(id(I), id(ptr))`,
the result first and the dereferenced pointer second; the memory-object table is
unchanged. -/
theorem C13_load_rule (s : PADriver) (I ptr : Value) :
    ∃ t a b, s.processInstruction (.Load I ptr) = .ok t ∧
      t.pointerAnalysis = s.pointerAnalysis ++ [SolverCall.addLoad a b] ∧
      AssocMap.find t.valMap I = some a ∧
      AssocMap.find t.valMap ptr = some b ∧
      t.valMem = s.valMem := by
  refine ⟨((s.Value2Int I).2.Value2Int ptr).2.addLoad (s.Value2Int I).1
    ((s.Value2Int I).2.Value2Int ptr).1, (s.Value2Int I).1,
    ((s.Value2Int I).2.Value2Int ptr).1, rfl, ?_, ?_, ?_, ?_⟩
  · show ((s.Value2Int I).2.Value2Int ptr).2.pointerAnalysis ++ _ = _
    rw [PADriver.Value2Int_pointerAnalysis, PADriver.Value2Int_pointerAnalysis]
  · exact (PADriver.grows_Value2Int _ ptr).valMap I _ (PADriver.find_Value2Int_self s I)
  · exact PADriver.find_Value2Int_self _ ptr
  · show ((s.Value2Int I).2.Value2Int ptr).2.valMem = _
    rw [PADriver.Value2Int_valMem, PADriver.Value2Int_valMem]

/-- C14, as stated, fails: `ptrtoint` is a cast instruction, its operand `p` is of pointer
type, and processing it submits nothing and assigns no id. -/
theorem C14_counterexample :
    Sample.p.type.isPointerTy = true ∧
    Sample.afterAlloca.processInstruction (castInstruction .PtrToInt Sample.n Sample.p) =
      .ok Sample.afterAlloca ∧
    ¬ ∃ t a b,
      Sample.afterAlloca.processInstruction (castInstruction .PtrToInt Sample.n Sample.p) =
        .ok t ∧
      t.pointerAnalysis = Sample.afterAlloca.pointerAnalysis ++ [SolverCall.addBase a b] := by
  refine ⟨rfl, rfl, ?_⟩
  rintro ⟨t, a, b, h1, h2⟩
  have h3 : Sample.afterAlloca.processInstruction
      (castInstruction .PtrToInt Sample.n Sample.p) = .ok Sample.afterAlloca := rfl
  rw [h3] at h1
  cases h1
  have h4 := congrArg List.length h2
  simp [Sample.afterAlloca] at h4

/-- C14 (cast rule), amended.  For a cast `I` of `v` with opcode `BitCast`: if the type of
`v` is a pointer type, the solver receives exactly one call, `addBase(id(I), id(v))`; if
it is not, processing changes nothing, so no constraint is submitted and the counter
and both tables stay as they are.  A cast with any other opcode (`ptrtoint`,
`inttoptr`, ...) changes nothing, whatever the type of its operand. -/
theorem C14_bitcast_rule (s : PADriver) (I v : Value) :
    (v.type.isPointerTy = true →
      ∃ t a b, s.processInstruction (.BitCast I v) = .ok t ∧
        t.pointerAnalysis = s.pointerAnalysis ++ [SolverCall.addBase a b] ∧
        AssocMap.find t.valMap I = some a ∧
        AssocMap.find t.valMap v = some b ∧
        t.valMem = s.valMem) ∧
    (v.type.isPointerTy = false → s.processInstruction (.BitCast I v) = .ok s) ∧
    castInstruction .BitCast I v = .BitCast I v ∧
    (∀ op : CastOp, op ≠ .BitCast → s.processInstruction (castInstruction op I v) = .ok s) := by
  refine ⟨?_, ?_, rfl, ?_⟩
  · intro h
    refine ⟨((s.Value2Int I).2.Value2Int v).2.addBase (s.Value2Int I).1
      ((s.Value2Int I).2.Value2Int v).1, (s.Value2Int I).1,
      ((s.Value2Int I).2.Value2Int v).1, ?_, ?_, ?_, ?_, ?_⟩
    · simp only [PADriver.processInstruction, PADriver.caseBitCast_eq, h, if_true]
    · show ((s.Value2Int I).2.Value2Int v).2.pointerAnalysis ++ _ = _
      rw [PADriver.Value2Int_pointerAnalysis, PADriver.Value2Int_pointerAnalysis]
    · exact (PADriver.grows_Value2Int _ v).valMap I _ (PADriver.find_Value2Int_self s I)
    · exact PADriver.find_Value2Int_self _ v
    · show ((s.Value2Int I).2.Value2Int v).2.valMem = _
      rw [PADriver.Value2Int_valMem, PADriver.Value2Int_valMem]
  · intro h
    simp [PADriver.processInstruction, PADriver.caseBitCast_eq, h]
  · intro op hop
    cases op <;> first | rfl | exact absurd rfl hop

theorem C14_bitcast_rule_witness :
    Sample.s3.type.isPointerTy = true ∧
    (∃ t a b, Sample.afterAlloca.processInstruction (.BitCast Sample.q Sample.s3) = .ok t ∧
      t.pointerAnalysis = Sample.afterAlloca.pointerAnalysis ++ [SolverCall.addBase a b] ∧
      AssocMap.find t.valMap Sample.q = some a ∧
      AssocMap.find t.valMap Sample.s3 = some b ∧
      t.valMem = Sample.afterAlloca.valMem) ∧
    Sample.n.type.isPointerTy = false ∧
    Sample.afterAlloca.processInstruction (.BitCast Sample.q Sample.n) =
      .ok Sample.afterAlloca ∧
    CastOp.PtrToInt ≠ CastOp.BitCast ∧
    Sample.afterAlloca.processInstruction (castInstruction .PtrToInt Sample.n Sample.p) =
      .ok Sample.afterAlloca :=
  ⟨rfl, (C14_bitcast_rule Sample.afterAlloca Sample.q Sample.s3).1 rfl, rfl,
    (C14_bitcast_rule Sample.afterAlloca Sample.q Sample.n).2.1 rfl, by decide,
    (C14_bitcast_rule Sample.afterAlloca Sample.n Sample.p).2.2.2 .PtrToInt (by decide)⟩

/-- C15 (inert instructions).  An instruction the dispatch has no arm for (any opcode the
switch does not list, a call whose callee is not statically known, a call of a function
not named malloc) is processed without failure and changes nothing.  Hence a sequence of
instructions, and a module, containing such an instruction are processed exactly like
the same sequence, or module, with the instruction removed: the same calls reach the
solver, or processing stops with the same fault. -/
theorem C15_inert_instructions (inst : Instruction) (hinert : inst.isInert = true) :
    (∀ s : PADriver, s.processInstruction inst = .ok s) ∧
    (∀ (s : PADriver) (pre post : List Instruction),
      s.processBlock (pre ++ inst :: post) = s.processBlock (pre ++ post)) ∧
    (∀ (s : PADriver) (Fs1 Fs2 : List Func) (Bs1 Bs2 : List BasicBlock)
        (pre post : List Instruction),
      s.runOnModule (Fs1 ++ (Bs1 ++ (pre ++ inst :: post) :: Bs2) :: Fs2) =
        s.runOnModule (Fs1 ++ (Bs1 ++ (pre ++ post) :: Bs2) :: Fs2)) := by
  have h1 : ∀ s : PADriver, s.processInstruction inst = .ok s :=
    fun s => PADriver.processInstruction_of_isInert s inst hinert
  have h2 : ∀ (pre post : List Instruction) (s : PADriver),
      s.processBlock (pre ++ inst :: post) = s.processBlock (pre ++ post) := by
    intro pre post s
    rw [PADriver.processBlock_append, PADriver.processBlock_append]
    cases s.processBlock pre with
    | error e => rfl
    | ok s1 => simp only [PADriver.processBlock, h1 s1]
  refine ⟨h1, fun s pre post => h2 pre post s, ?_⟩
  intro s Fs1 Fs2 Bs1 Bs2 pre post
  have h3 := PADriver.processModule_congr Fs1 Fs2 _ _
    (PADriver.processFunction_congr Bs1 Bs2 _ _ (h2 pre post)) s
  simp only [PADriver.runOnModule, h3]

theorem C15_inert_instructions_witness :
    (Instruction.Call Sample.q none).isInert = true ∧
    Sample.afterAlloca.processInstruction (.Call Sample.q none) = .ok Sample.afterAlloca ∧
    PADriver.init.processBlock ([.Alloca Sample.s3] ++ .Call Sample.q none ::
        [.Load Sample.q Sample.p]) =
      PADriver.init.processBlock ([.Alloca Sample.s3] ++ [.Load Sample.q Sample.p]) :=
  ⟨rfl, (C15_inert_instructions (.Call Sample.q none) rfl).1 Sample.afterAlloca,
    (C15_inert_instructions (.Call Sample.q none) rfl).2.1 PADriver.init [.Alloca Sample.s3]
      [.Load Sample.q Sample.p]⟩

/-- C16 (completion order): the code breaks it on a valid unit.  On the module whose one
block is the `alloca` of a struct without fields followed by a one-index
`getelementptr` on it, and on the module whose one block is a call of a function named
malloc that returns a struct pointer followed by the access of field 1, the run stops
at the out-of-range read of `mems[pos]` in the `GetElementPtr` arm: `runOnModule`
returns nothing, so neither `solve` nor `print` is called. -/
theorem C16_run_stops_before_solve :
    PADriver.init.runOnModule
        [[[.Alloca Sample.e0, .GetElementPtr Sample.qe Sample.e0 [.ConstantInt 0]]]] =
      .error Fault.outOfBounds ∧
    PADriver.init.runOnModule
        [[[.Call Sample.m2 (some "malloc"),
            .GetElementPtr Sample.q Sample.m2 [.ConstantInt 0, .ConstantInt 1]]]] =
      .error Fault.outOfBounds ∧
    ¬ ∃ r t, PADriver.init.runOnModule
        [[[.Alloca Sample.e0, .GetElementPtr Sample.qe Sample.e0 [.ConstantInt 0]]]] =
      .ok (r, t) := by
  refine ⟨rfl, rfl, ?_⟩
  rintro ⟨r, t, h⟩
  have he : PADriver.init.runOnModule
      [[[.Alloca Sample.e0, .GetElementPtr Sample.qe Sample.e0 [.ConstantInt 0]]]] =
      .error Fault.outOfBounds := rfl
  rw [he] at h
  cases h

/-- C17 (valid constraint arguments).  In every state reached from the initial state by
processing instructions without a fault, each id passed to the solver lies between 1 and
the counter and is recorded: it is the id of a value in the value table or an element
of a cached sequence.  In particular this holds, in the state right after an
instruction, for the calls that instruction submitted; and processing the instruction is
a sequence of elementary state changes (`Micros`) in which a constraint is only
submitted with ids that are recorded at the moment of the submission. -/
theorem C17_valid_constraint_arguments (pre : List Instruction) (s : PADriver)
    (hpre : PADriver.init.processBlock pre = .ok s) :
    (∀ c ∈ s.pointerAnalysis, ∀ x ∈ c.args,
      (1 ≤ x ∧ x ≤ s.currInd) ∧
      ((∃ v, AssocMap.find s.valMap v = some x) ∨
        (∃ v mems, AssocMap.find s.valMem v = some mems ∧ x ∈ mems))) ∧
    (∀ inst t, s.processInstruction inst = .ok t →
      PADriver.Micros s t ∧
      ∃ more, t.pointerAnalysis = s.pointerAnalysis ++ more ∧
        ∀ c ∈ more, c.isConstraint = true ∧ ∀ x ∈ c.args,
          (1 ≤ x ∧ x ≤ t.currInd) ∧
          ((∃ v, AssocMap.find t.valMap v = some x) ∨
            (∃ v mems, AssocMap.find t.valMem v = some mems ∧ x ∈ mems))) := by
  have hw := PADriver.WF_processBlock PADriver.WF_init hpre
  have hsub : ∀ c ∈ s.pointerAnalysis, ∀ x ∈ c.args, PADriver.Recorded s x :=
    PADriver.submitted_micros (by simp [PADriver.init]) (PADriver.micros_processBlock hpre)
  refine ⟨fun c hc x hx => ⟨hw.calls_range c hc x hx, hsub c hc x hx⟩, ?_⟩
  intro inst t ht
  have hm := PADriver.micros_processInstruction ht
  have hwt := PADriver.WF_processInstruction hw ht
  have hsubt := PADriver.submitted_micros hsub hm
  obtain ⟨more, e, hc⟩ := PADriver.micros_calls hm
  refine ⟨hm, more, e, ?_⟩
  intro c hcm
  have hmem : c ∈ t.pointerAnalysis := by
    rw [e]; exact List.mem_append_right _ hcm
  exact ⟨hc c hcm, fun x hx => ⟨hwt.calls_range c hmem x hx, hsubt c hmem x hx⟩⟩

theorem C17_valid_constraint_arguments_witness :
    PADriver.init.processBlock [.Alloca Sample.s3, .Load Sample.q Sample.p] =
      .ok Sample.afterLoad ∧
    ∀ c ∈ Sample.afterLoad.pointerAnalysis, ∀ x ∈ c.args,
      (1 ≤ x ∧ x ≤ Sample.afterLoad.currInd) ∧
      ((∃ v, AssocMap.find Sample.afterLoad.valMap v = some x) ∨
        (∃ v mems, AssocMap.find Sample.afterLoad.valMem v = some mems ∧ x ∈ mems)) :=
  ⟨rfl, (C17_valid_constraint_arguments [.Alloca Sample.s3, .Load Sample.q Sample.p]
    Sample.afterLoad rfl).1⟩

/-- C19 (dense id space).  In every state reached from the initial state by processing
instructions, the counter is the number of entries of the value table plus the total
length of the cached sequences; each table has one entry per key; and the integers from
1 to the counter are exactly the ids held by the two tables, each of them held exactly
once (as the id of one value or as one element of one cached sequence). -/
theorem C19_dense_id_space (insts : List Instruction) (t : PADriver)
    (h : PADriver.init.processBlock insts = .ok t) :
    (t.valMap.length : Int) + ((t.valMem.map (fun e => e.2.length)).sum : Nat) = t.currInd ∧
    (t.valMap.map Prod.fst).Nodup ∧ (t.valMem.map Prod.fst).Nodup ∧
    (∀ x, (1 ≤ x ∧ x ≤ t.currInd) ↔ x ∈ t.allIds) ∧
    (∀ x, 1 ≤ x → x ≤ t.currInd → t.allIds.count x = 1) ∧
    (∀ x, x ∈ t.allIds ↔
      ((∃ v, AssocMap.find t.valMap v = some x) ∨
        (∃ v mems, AssocMap.find t.valMem v = some mems ∧ x ∈ mems))) := by
  have hd := PADriver.Dense_micros PADriver.Dense_init (PADriver.micros_processBlock h)
  have hmem : ∀ x, 1 ≤ x → x ≤ t.currInd → x ∈ t.allIds :=
    PADriver.mem_of_nodup_of_length _ _ hd.ids_nodup hd.ids_range hd.ids_length
  refine ⟨?_, hd.valMap_keys, hd.valMem_keys, ?_, ?_, PADriver.mem_allIds_iff hd⟩
  · rw [← hd.ids_length]
    simp only [PADriver.allIds, List.length_append, List.length_map, List.length_flatten,
      List.map_map, Nat.cast_add]
    rfl
  · intro x
    exact ⟨fun hx => hmem x hx.1 hx.2, hd.ids_range x⟩
  · intro x h1 h2
    exact List.count_eq_one_of_mem hd.ids_nodup (hmem x h1 h2)

theorem C19_dense_id_space_witness :
    PADriver.init.processBlock [.Alloca Sample.s3, .Load Sample.q Sample.p] =
      .ok Sample.afterLoad ∧
    (Sample.afterLoad.valMap.length : Int) +
      ((Sample.afterLoad.valMem.map (fun e => e.2.length)).sum : Nat) =
        Sample.afterLoad.currInd ∧
    Sample.afterLoad.allIds.count 5 = 1 :=
  ⟨rfl, (C19_dense_id_space [.Alloca Sample.s3, .Load Sample.q Sample.p]
      Sample.afterLoad rfl).1,
    (C19_dense_id_space [.Alloca Sample.s3, .Load Sample.q Sample.p]
      Sample.afterLoad rfl).2.2.2.2.1 5 (by decide) (by decide)⟩

/-- C20 (memory-object table frame).  Processing an instruction either is the first visit
of an allocation site `I` (an `alloca`, or a call of malloc, with no entry for `I`) and
then adds one entry, for `I` only, at the end of the table (of length 1 for a malloc
call); or it is anything else (a store, load, cast, `getelementptr` in either branch,
another instruction, an allocation site that has an entry) and then leaves the table
exactly as it is.  So an entry is never altered or removed by later instructions.  In a
run from the initial state, every entry whose site is not one of the processed `alloca`
instructions has length 1, and a call of malloc on such a site is always processed
without fault (the read of element 0 is in bounds). -/
theorem C20_memory_object_table_frame :
    (∀ (s t : PADriver) (inst : Instruction), s.processInstruction inst = .ok t →
      (∃ I mems, (inst = .Alloca I ∨ (inst = .Call I (some "malloc") ∧ mems.length = 1)) ∧
        AssocMap.find s.valMem I = none ∧ t.valMem = s.valMem ++ [(I, mems)]) ∨
      ((∀ I, inst = .Alloca I ∨ inst = .Call I (some "malloc") →
          AssocMap.find s.valMem I ≠ none) ∧ t.valMem = s.valMem)) ∧
    (∀ (s t : PADriver) (insts : List Instruction), s.processBlock insts = .ok t →
      ∀ I mems, AssocMap.find s.valMem I = some mems →
        AssocMap.find t.valMem I = some mems) ∧
    (∀ (insts : List Instruction) (t : PADriver), PADriver.init.processBlock insts = .ok t →
      ∀ I mems, AssocMap.find t.valMem I = some mems → Instruction.Alloca I ∉ insts →
        mems.length = 1) ∧
    (∀ (insts : List Instruction) (s : PADriver) (I : Value),
      PADriver.init.processBlock insts = .ok s → Instruction.Alloca I ∉ insts →
        ∃ t, s.processInstruction (.Call I (some "malloc")) = .ok t) := by
  have hlen : ∀ (insts : List Instruction) (t : PADriver),
      PADriver.init.processBlock insts = .ok t →
      ∀ I mems, AssocMap.find t.valMem I = some mems → Instruction.Alloca I ∉ insts →
        mems.length = 1 := by
    intro insts t h I mems hI hnot
    have := PADriver.mallocLen_processBlock insts [] PADriver.init t
      (by intro J ms hJ; simp [PADriver.init, AssocMap.find] at hJ) h I mems hI
    rcases this with h1 | h1
    · exact h1
    · exact absurd (by simpa using h1) hnot
  refine ⟨?_, ?_, hlen, ?_⟩
  · intro s t inst h
    rcases PADriver.valMem_processInstruction h with ⟨I, mems, hk, hf, hv⟩ | h2
    · exact Or.inl ⟨I, mems, hk, hf, by rw [hv, AssocMap.assign_of_find_none _ _ _ hf]⟩
    · exact Or.inr h2
  · intro s t insts h
    exact (PADriver.grows_processBlock h).valMem
  · intro insts s I h hnot
    have hstep : s.processInstruction (.Call I (some "malloc")) = s.caseMalloc I := by
      simp [PADriver.processInstruction]
    rw [hstep]
    cases hf : AssocMap.find s.valMem I with
    | none => exact ⟨_, PADriver.caseMalloc_first s _ I hf rfl⟩
    | some mems =>
        obtain ⟨b, rfl⟩ := List.length_eq_one.mp (hlen insts s h I mems hf hnot)
        rw [PADriver.caseMalloc_cached s I [b] hf]
        exact ⟨_, rfl⟩

theorem C20_memory_object_table_frame_witness :
    PADriver.init.processBlock [.Alloca Sample.s3, .Call Sample.m (some "malloc")] =
      .ok { pointerAnalysis := [.addAddr 4 1, .addAddr 4 2, .addAddr 4 3, .addAddr 6 5],
            currInd := 6,
            valMap := [(Sample.s3, 4), (Sample.m, 6)],
            valMem := [(Sample.s3, [1, 2, 3]), (Sample.m, [5])],
            PABaseCt := 0, PAAddrCt := 4, PALoadCt := 0, PAStoreCt := 0 } ∧
    Instruction.Alloca Sample.m ∉
      [Instruction.Alloca Sample.s3, .Call Sample.m (some "malloc")] ∧
    [(5 : Int)].length = 1 :=
  ⟨rfl, by decide,
    C20_memory_object_table_frame.2.2.1
      [.Alloca Sample.s3, .Call Sample.m (some "malloc")] _ rfl Sample.m [5] rfl (by decide)⟩

/-- C18, as stated, fails: the load `n = *p` with a result `n` of non-pointer type
submits `addLoad(1, 2)`, whose first argument is the id of `n`. -/
theorem C18_counterexample :
    PADriver.init.processBlock [.Load Sample.n Sample.p] =
      .ok { pointerAnalysis := [.addLoad 1 2],
            currInd := 2,
            valMap := [(Sample.n, 1), (Sample.p, 2)],
            valMem := [],
            PABaseCt := 0, PAAddrCt := 0, PALoadCt := 1, PAStoreCt := 0 } ∧
    Sample.n.type.isPointerTy = false ∧
    ¬ (∀ t, PADriver.init.processBlock [.Load Sample.n Sample.p] = .ok t →
        ∀ c ∈ t.pointerAnalysis, ∀ x ∈ c.args, ∀ v, AssocMap.find t.valMap v = some x →
          v.type.isPointerTy = true) := by
  refine ⟨rfl, rfl, ?_⟩
  intro hall
  have h1 := hall _ rfl
  have h2 := h1 (.addLoad 1 2) (List.mem_singleton.mpr rfl) 1 (List.mem_cons_self _ _)
    Sample.n rfl
  cases h2

/-- C18 (pointer-only constraints), amended.  In every state reached from the initial
state by processing a sequence of instructions that respects the typing rules of the
IR, every value that has an id, and so every value whose id is an argument of a
submitted constraint, is of pointer type, or is the result of a load of the sequence, or
is the result of a call of malloc of the sequence: the load arm and the malloc arm
submit their constraint whatever the type of the result. -/
theorem C18_pointer_only_except_load_results (insts : List Instruction) (t : PADriver)
    (hwt : ∀ inst ∈ insts, inst.wellTyped = true)
    (h : PADriver.init.processBlock insts = .ok t) :
    (∀ v n, AssocMap.find t.valMap v = some n →
      v.type.isPointerTy = true ∨ (∃ ptr, Instruction.Load v ptr ∈ insts) ∨
        Instruction.Call v (some "malloc") ∈ insts) ∧
    (∀ c ∈ t.pointerAnalysis, ∀ x ∈ c.args, ∀ v, AssocMap.find t.valMap v = some x →
      v.type.isPointerTy = true ∨ (∃ ptr, Instruction.Load v ptr ∈ insts) ∨
        Instruction.Call v (some "malloc") ∈ insts) := by
  have key := PADriver.typed_processBlock insts [] PADriver.init t hwt
    (by intro v n hv; simp [PADriver.init, AssocMap.find] at hv) h
  simp only [List.nil_append] at key
  exact ⟨key, fun _ _ x _ v hv => key v x hv⟩

theorem C18_pointer_only_except_load_results_witness :
    (∀ inst ∈ [Instruction.Alloca Sample.s3, .Load Sample.q Sample.p],
      inst.wellTyped = true) ∧
    PADriver.init.processBlock [.Alloca Sample.s3, .Load Sample.q Sample.p] =
      .ok Sample.afterLoad ∧
    ∀ v n, AssocMap.find Sample.afterLoad.valMap v = some n →
      v.type.isPointerTy = true ∨
        (∃ ptr, Instruction.Load v ptr ∈
          [Instruction.Alloca Sample.s3, .Load Sample.q Sample.p]) ∨
        Instruction.Call v (some "malloc") ∈
          [Instruction.Alloca Sample.s3, .Load Sample.q Sample.p] :=
  ⟨by decide, rfl,
    (C18_pointer_only_except_load_results [.Alloca Sample.s3, .Load Sample.q Sample.p]
      Sample.afterLoad (by decide) rfl).1⟩

end PA
